import Mathlib

/-!
# Verification of the sidebar menu builder (`make_sidebar_menu`)

Shallow embedding of the sidebar-menu code in
`frappe/public/js/frappe/list/list_sidebar.js` (lines 300-391) and
`frappe/public/js/frappe/form/sidebar/form_sidebar.js` (lines 289-366).

The builder fetches a flat list of page descriptors, renders each as a
`sidebar-item-container` holding an anchor row plus an (initially `hidden`)
`sidebar-child-item nested-container`, appends them flat into one
`standard-sidebar-section`, then re-parents every item with a truthy
`data-parent` under the container whose `data-name` equals that parent,
and installs a click handler on the drop icons that toggles `hidden`
classes and persists an array of expanded titles in `localStorage` under
the key `"list_sidebar_open"`.

The DOM fragment owned by this code is modelled as a forest of `Node`s
(one per `sidebar-item-container`); jQuery traversal/mutation primitives
(`find`, `appendTo`, `addClass`, `toggleClass`, `attr`) are modelled as
recursive functions over that forest.  `localStorage` is modelled as a
`String → Option String` store, and `JSON.stringify`/`JSON.parse` on
arrays of strings as `encodeArr`/`decodeArr` (character escaping of the
titles is not modelled; theorems that rely on the round trip assume the
titles contain no `"` character).

Modelling notes, for re-tracing against the source:
* jQuery `find` returns matches in document (pre-order) order; the
  embedding keeps the first match.  All claims about the builder assume
  unique titles, under which the match is unique.
* `appendTo` with an empty target collection is a no-op (the element
  stays where it was): this is the orphan-parent path.
* Moving an element into its own descendant raises a DOM
  `HierarchyRequestError`; this can only happen for cyclic
  `parent_page` references, which every claim excludes.  The embedding
  makes `step` return the forest unchanged in that unreachable case.
-/

/-- A page descriptor as fetched from
`frappe.desk.desktop.get_workspace_sidebar_items` (`r.message.pages`).
Empty strings model absent/falsy `parent_page`, `icon`, `custom_link`. -/
structure PageItem where
  title : String
  parent_page : String
  public : Bool
  is_editable : Bool
  icon : String
  custom_link : String
  selected : Bool
  deriving Repr, DecidableEq

/-- One `sidebar-item-container` DOM element: its `data-name`, its
`data-parent`, the `href` of the `use` element of the drop icon in its
`sidebar-item-control` (`none` = no drop icon appended), whether its
`sidebar-child-item nested-container` carries the `hidden` class, and the
containers nested inside that nested container. -/
inductive Node : Type where
  | mk : String → String → Option String → Bool → List Node → Node

namespace Node

def name : Node → String
  | .mk n _ _ _ _ => n

def parentAttr : Node → String
  | .mk _ p _ _ _ => p

def dropHref : Node → Option String
  | .mk _ _ d _ _ => d

def hidden : Node → Bool
  | .mk _ _ _ h _ => h

def children : Node → List Node
  | .mk _ _ _ _ cs => cs

end Node

/-- Number of `sidebar-item-container` elements with `data-name = t`
anywhere in the forest. -/
def countName (t : String) : List Node → Nat
  | [] => 0
  | .mk n _ _ _ cs :: rest =>
    (if n = t then 1 else 0) + countName t cs + countName t rest

/-- jQuery `$sections.find('[data-name=t].sidebar-item-container')`,
kept to its first (document-order) match. -/
def findNode (t : String) : List Node → Option Node
  | [] => none
  | .mk n p d hd cs :: rest =>
    if n = t then some (.mk n p d hd cs)
    else
      match findNode t cs with
      | some m => some m
      | none => findNode t rest

/-- `hidden` class of the nested-child container of the (first) item
named `t`: `none` when no such item exists. -/
def hiddenOf (t : String) : List Node → Option Bool
  | [] => none
  | .mk n _ _ hd cs :: rest =>
    if n = t then some hd
    else
      match hiddenOf t cs with
      | some b => some b
      | none => hiddenOf t rest

/-- `href` attribute of the `use` element of the drop icon of the (first)
item named `t`; `none` when the item does not exist or has no drop icon
(jQuery `.attr("href")` returns `undefined` in both cases). -/
def hrefOf (t : String) : List Node → Option String
  | [] => none
  | .mk n _ d _ cs :: rest =>
    if n = t then d
    else
      match hrefOf t cs with
      | some v => some v
      | none => hrefOf t rest

/-- `$drop_icon.find("use").attr("href", icon)`: set the drop-icon href
of every item named `t` (unique under the unique-title assumption). -/
def setHref (t : String) (v : String) : List Node → List Node
  | [] => []
  | .mk n p d hd cs :: rest =>
    .mk n p (if n = t then some v else d) hd (setHref t v cs) :: setHref t v rest

/-- jQuery `appendTo` detaching an element: remove the (first) container
named `t` — together with its whole subtree — from the forest, returning
it and the pruned forest. -/
def extractNode (t : String) : List Node → Option (Node × List Node)
  | [] => none
  | .mk n p d hd cs :: rest =>
    if n = t then some (.mk n p d hd cs, rest)
    else
      match extractNode t cs with
      | some (m, cs') => some (m, .mk n p d hd cs' :: rest)
      | none =>
        match extractNode t rest with
        | some (m, rest') => some (m, .mk n p d hd cs :: rest')
        | none => none

/-- The three statements run on a found parent in the re-parenting pass
of `make_sidebar_menu`: append a `#es-line-down` drop icon to the parent's
`sidebar-item-control` if it has none, append the moved container at the
end of the parent's `sidebar-child-item nested-container`, and
`addClass("hidden")` on that nested container.  `none` when no container
named `p` exists in the forest. -/
def attachTo (p : String) (child : Node) : List Node → Option (List Node)
  | [] => none
  | .mk n pa d hd cs :: rest =>
    if n = p then
      some (.mk n pa (some (d.getD "#es-line-down")) true (cs ++ [child]) :: rest)
    else
      match attachTo p child cs with
      | some cs' => some (.mk n pa d hd cs' :: rest)
      | none =>
        match attachTo p child rest with
        | some rest' => some (.mk n pa d hd cs :: rest')
        | none => none

/-- Whether a container named `t` occurs in the subtree of `nd`
(as a `Bool`, for executable statements). -/
def nodeContains (t : String) (nd : Node) : Bool :=
  0 < countName t [nd]

/-- Flip the `hidden` class of the nested container of `nd` and of every
nested container below it: the effect of
`$drop_icon.parents(".sidebar-item-container").find(".sidebar-child-item.nested-container").toggleClass("hidden")`
on the outermost matched ancestor. -/
def flipAllForest : List Node → List Node
  | [] => []
  | .mk n p d hd cs :: rest => .mk n p d (!hd) (flipAllForest cs) :: flipAllForest rest

/-- `toggleClass("hidden")` as run by the click handler: `$drop_icon.parents(...)`
collects the clicked item's container together with all its ancestor
containers, and `.find(...)` then matches every nested container inside
the outermost of them, i.e. inside the top-level container whose subtree
holds the clicked item.  Every `hidden` flag in that top-level subtree is
flipped; all other top-level subtrees are untouched. -/
def clickEffect (x : String) (f : List Node) : List Node :=
  f.map fun nd =>
    if nodeContains x nd then
      match nd with
      | .mk n p d hd cs => .mk n p d (!hd) (flipAllForest cs)
    else nd

/-- A particular `Node` value occurs (at any depth) in the forest. -/
def OccursIn (m : Node) : List Node → Prop
  | [] => False
  | .mk n p d hd cs :: rest =>
    m = .mk n p d hd cs ∨ OccursIn m cs ∨ OccursIn m rest

/-- Some container named `a` has a container named `b` directly inside
its nested-child container. -/
def Adj (a b : String) (f : List Node) : Prop :=
  ∃ m, OccursIn m f ∧ m.name = a ∧ ∃ c ∈ m.children, c.name = b

/-! ## localStorage and JSON -/

/-- `localStorage`: a key-value store of strings; `none` models an absent
key (`getItem` returning `null`). -/
def Store := String → Option String

/-- The fixed persistence key used by both builders. -/
def lsKey : String := "list_sidebar_open"

/-- `localStorage.setItem`. -/
def updStore (s : Store) (k v : String) : Store :=
  fun q => if q = k then some v else s q

/-- `JSON.stringify` on an array of strings, at the character level:
`["a","b"]`.  Escaping of `"` and `\` inside the titles is not modelled;
round-trip lemmas assume titles free of `"`. -/
def encodeItems : List String → List Char
  | [] => []
  | [s] => '"' :: s.data ++ ['"']
  | s :: s2 :: rest => '"' :: s.data ++ '"' :: ',' :: encodeItems (s2 :: rest)

/-- `JSON.stringify` of an array of titles, as a `String`. -/
def encodeArr (l : List String) : String :=
  String.mk ('[' :: encodeItems l ++ [']'])

/-- Parser state for `JSON.parse` restricted to arrays of plain
strings: expecting the opening quote of the next string, inside a
string, or after a closing quote (expecting `,` or `]`). -/
inductive PState : Type where
  | start : PState
  | str : PState
  | sep : PState

/-- Parser loop for `JSON.parse` restricted to arrays of plain strings
(the only values this code ever stores): `acc` accumulates the current
string's characters in reverse, `out` the parsed strings in reverse. -/
def parseLoop : List Char → PState → List Char → List String → Option (List String)
  | [], _, _, _ => none
  | c :: rest, .start, _, out =>
    if c = '"' then parseLoop rest .str [] out else none
  | c :: rest, .str, acc, out =>
    if c = '"' then parseLoop rest .sep [] (String.mk acc.reverse :: out)
    else parseLoop rest .str (c :: acc) out
  | c :: rest, .sep, _, out =>
    if c = ']' then (if rest.isEmpty then some out.reverse else none)
    else if c = ',' then parseLoop rest .start [] out
    else none
termination_by cs _ _ _ => cs.length
decreasing_by all_goals (simp; try omega)

/-- `JSON.parse` restricted to arrays of plain strings; `none` models a
thrown `SyntaxError` (or a value that is not such an array). -/
def decodeArr (s : String) : Option (List String) :=
  match s.data with
  | ['[', ']'] => some []
  | '[' :: '"' :: rest => parseLoop rest .str [] []
  | _ => none

/-- The parsed DOM of the `sidebar-item-container` markup of one item,
as appended flat into the `standard-sidebar-section` (identical in both
source files): `data-name`/`data-parent` set from the item, no drop icon
in the `sidebar-item-control` yet, the `sidebar-child-item
nested-container` already carrying the `hidden` class (the class is part
of the markup), and nothing nested inside it. -/
def initNode (it : PageItem) : Node :=
  .mk it.title it.parent_page none true []

/-- The flat forest right after
`$(sidebar).append(...)` of the concatenated item markup. -/
def initForest (items : List PageItem) : List Node :=
  items.map initNode

/-- Result of one run of the drop-icon click handler: the mutated
forest, the updated store, and the list of `setItem` calls performed. -/
structure ClickResult where
  forest : List Node
  store : Store
  writes : List (String × String)

/-! ## `list_sidebar.js` (`make_sidebar_menu`, lines 300-391) -/

namespace list_sidebar

/-- The `sidebar_item_container` template (lines 301-314).  The framework
collaborators `frappe.router.slug`, `__` and `frappe.utils.icon` are not
part of this file and are taken as function parameters `slug`, `tr`,
`icon_fn`.  `item.custom_link || …`, `item.icon || "folder-normal"` use
JS falsiness of the empty string; `item.public || 0` renders `"true"` for
a true boolean and `"0"` otherwise. -/
def sidebar_item_container (slug tr : String → String)
    (icon_fn : String → String → String) (item : PageItem) : String :=
  let link := if item.custom_link ≠ "" then item.custom_link
    else if item.public then slug item.title else "private/" ++ slug item.title
  "\n\t\t  <div class=\"sidebar-item-container " ++
    (if item.is_editable then "is-draggable" else "") ++
    "\" data-parent=\"" ++ item.parent_page ++ "\" data-name=\"" ++ item.title ++
    "\" data-public=\"" ++ (if item.public then "true" else "0") ++ "\">\n" ++
  "\t\t\t<div class=\"desk-sidebar-item standard-sidebar-item " ++
    (if item.selected then "selected" else "") ++ "\">\n" ++
  "\t\t\t  <a href=\"/app/" ++ link ++ "\" class=\"item-anchor " ++
    (if item.is_editable then "" else "block-click") ++ "\" title=\"" ++
    tr item.title ++ "\">\n" ++
  "\t\t\t\t<span class=\"sidebar-item-icon\" data-icon=" ++
    (if item.icon ≠ "" then item.icon else "folder-normal") ++ ">" ++
    icon_fn (if item.icon ≠ "" then item.icon else "folder-normal") "md" ++
    "</span>\n" ++
  "\t\t\t\t<span class=\"sidebar-item-label\">" ++ tr item.title ++ "<span>\n" ++
  "\t\t\t  </a>\n" ++
  "\t\t\t  <div class=\"sidebar-item-control\"></div>\n" ++
  "\t\t\t</div>\n" ++
  "\t\t\t<div class=\"sidebar-child-item nested-container hidden\"></div>\n" ++
  "\t\t  </div>"

/-- Lines 316-324 of the callback: the fetched pages are rendered and a
fresh `desk-sidebar … sidebar-menu` container holding them is appended to
the sidebar element, which is modelled as the list of menu containers
appended to it so far.  No existing menu is searched for, emptied or
replaced. -/
def append_sidebar_menu (pages : List PageItem) (menus : List (List Node)) :
    List (List Node) :=
  menus ++ [initForest pages]

/-- One iteration of the `$labelItems.each` re-parenting loop (lines
341-359) for the snapshot element with `data-name = pr.1` and
`data-parent = pr.2`: when the parent attribute is truthy and the parent
container exists, the parent gets a drop icon if it has none, the whole
container named `pr.1` moves to the end of the parent's nested container,
and the nested container gets `hidden`; when the parent selector matches
nothing, all three statements are no-ops on an empty jQuery set.  (The
`attachTo … = none` fallback is the cyclic-reference case where the DOM
would throw `HierarchyRequestError`; unreachable under the acyclicity
assumed by every claim.) -/
def step (f : List Node) (pr : String × String) : List Node :=
  if pr.2 = "" then f
  else
    match findNode pr.2 f with
    | none => f
    | some _ =>
      match extractNode pr.1 f with
      | none => f
      | some (nd, f') =>
        match attachTo pr.2 nd f' with
        | some f'' => f''
        | none => f

/-- The build phase of `make_sidebar_menu` on the freshly appended menu:
the flat forest of rendered items, then the re-parenting pass over the
snapshot of the section's children in document order. -/
def buildForest (items : List PageItem) : List Node :=
  (items.map fun it => (it.title, it.parent_page)).foldl step (initForest items)

/-- The drop-icon click handler (lines 361-388), for a click on the drop
icon of the item named `x`: parse the persisted array (a parse failure
throws and aborts the handler: `none`); flip the icon href; toggle
`hidden` on every nested container under the outermost ancestor
container (`clickEffect`); then remove `x` from the persisted array if
the new icon is `#es-line-down` and the array contains it, or append `x`
if the new icon is `#es-line-up` and the array lacks it, writing the
re-encoded array back under `lsKey` only in those two cases. -/
def toggle_click (x : String) (f : List Node) (store : Store) :
    Option ClickResult :=
  match decodeArr ((store lsKey).getD "[]") with
  | none => none
  | some arr =>
    let icon := if hrefOf x f = some "#es-line-down" then "#es-line-up"
      else "#es-line-down"
    let f1 := clickEffect x (setHref x icon f)
    if icon = "#es-line-down" then
      if arr.contains x then
        let arr2 := arr.erase x
        some ⟨f1, updStore store lsKey (encodeArr arr2), [(lsKey, encodeArr arr2)]⟩
      else some ⟨f1, store, []⟩
    else
      if arr.contains x then some ⟨f1, store, []⟩
      else
        let arr2 := arr ++ [x]
        some ⟨f1, updStore store lsKey (encodeArr arr2), [(lsKey, encodeArr arr2)]⟩

end list_sidebar

/-! ## `form_sidebar.js` (`make_sidebar_menu`, lines 289-366)

The added function in `form_sidebar.js` is a copy of the one in
`list_sidebar.js` except for the extra `collapsible_btn` filter button of
the list sidebar (outside the menu) and the `$nonLabelItems` /
`$labelItems` variable name; the menu logic is transcribed separately so
the refinement claim can compare the two. -/

namespace form_sidebar

/-- The `sidebar_item_container` template (lines 290-303). -/
def sidebar_item_container (slug tr : String → String)
    (icon_fn : String → String → String) (item : PageItem) : String :=
  let link := if item.custom_link ≠ "" then item.custom_link
    else if item.public then slug item.title else "private/" ++ slug item.title
  "\n\t\t  <div class=\"sidebar-item-container " ++
    (if item.is_editable then "is-draggable" else "") ++
    "\" data-parent=\"" ++ item.parent_page ++ "\" data-name=\"" ++ item.title ++
    "\" data-public=\"" ++ (if item.public then "true" else "0") ++ "\">\n" ++
  "\t\t\t<div class=\"desk-sidebar-item standard-sidebar-item " ++
    (if item.selected then "selected" else "") ++ "\">\n" ++
  "\t\t\t  <a href=\"/app/" ++ link ++ "\" class=\"item-anchor " ++
    (if item.is_editable then "" else "block-click") ++ "\" title=\"" ++
    tr item.title ++ "\">\n" ++
  "\t\t\t\t<span class=\"sidebar-item-icon\" data-icon=" ++
    (if item.icon ≠ "" then item.icon else "folder-normal") ++ ">" ++
    icon_fn (if item.icon ≠ "" then item.icon else "folder-normal") "md" ++
    "</span>\n" ++
  "\t\t\t\t<span class=\"sidebar-item-label\">" ++ tr item.title ++ "<span>\n" ++
  "\t\t\t  </a>\n" ++
  "\t\t\t  <div class=\"sidebar-item-control\"></div>\n" ++
  "\t\t\t</div>\n" ++
  "\t\t\t<div class=\"sidebar-child-item nested-container hidden\"></div>\n" ++
  "\t\t  </div>"

/-- One iteration of the `$nonLabelItems.each` re-parenting loop
(lines 318-336); same statements as in the list sidebar. -/
def step (f : List Node) (pr : String × String) : List Node :=
  if pr.2 = "" then f
  else
    match findNode pr.2 f with
    | none => f
    | some _ =>
      match extractNode pr.1 f with
      | none => f
      | some (nd, f') =>
        match attachTo pr.2 nd f' with
        | some f'' => f''
        | none => f

/-- The build phase of the form sidebar's `make_sidebar_menu`. -/
def buildForest (items : List PageItem) : List Node :=
  (items.map fun it => (it.title, it.parent_page)).foldl step (initForest items)

/-- The drop-icon click handler (lines 338-363); same statements as in
the list sidebar. -/
def toggle_click (x : String) (f : List Node) (store : Store) :
    Option ClickResult :=
  match decodeArr ((store lsKey).getD "[]") with
  | none => none
  | some arr =>
    let icon := if hrefOf x f = some "#es-line-down" then "#es-line-up"
      else "#es-line-down"
    let f1 := clickEffect x (setHref x icon f)
    if icon = "#es-line-down" then
      if arr.contains x then
        let arr2 := arr.erase x
        some ⟨f1, updStore store lsKey (encodeArr arr2), [(lsKey, encodeArr arr2)]⟩
      else some ⟨f1, store, []⟩
    else
      if arr.contains x then some ⟨f1, store, []⟩
      else
        let arr2 := arr ++ [x]
        some ⟨f1, updStore store lsKey (encodeArr arr2), [(lsKey, encodeArr arr2)]⟩

end form_sidebar

/-! ## Malformed items (missing `title`) -/

/-- A fetched page descriptor before any well-formedness assumption: the
`title` field may be absent (`undefined` in the JS object). -/
structure RawPageItem where
  title : Option String
  parent_page : String
  public : Bool
  is_editable : Bool
  icon : String
  custom_link : String
  selected : Bool

/-- Modelled from the spec: `frappe.router.slug` and the selector
machinery consuming `item.title` are framework code of this repository
that is not under `src/`.  Spec §7: a malformed `PageItem` with a missing
title "would throw when used as a selector key; this is an unguarded
precondition, not a handled error."  Rendering an item therefore fails
when the title is missing and otherwise produces the
`sidebar_item_container` markup. -/
def render_raw_item (slug tr : String → String)
    (icon_fn : String → String → String) (it : RawPageItem) :
    Except String String :=
  match it.title with
  | none => Except.error "TypeError: undefined title used as a selector key"
  | some t =>
    Except.ok (list_sidebar.sidebar_item_container slug tr icon_fn
      ⟨t, it.parent_page, it.public, it.is_editable, it.icon, it.custom_link,
        it.selected⟩)

/-- The rendering loop of `make_sidebar_menu` (`pages.forEach` building
`html_sidebar_menu`) over raw fetched items: the first thrown error
aborts the build. -/
def build_raw (slug tr : String → String)
    (icon_fn : String → String → String) (items : List RawPageItem) :
    Except String (List String) :=
  items.mapM (render_raw_item slug tr icon_fn)

/-! ## Well-formedness of a fetched sequence -/

/-- The child-to-parent reference relation of a fetched sequence:
`parentRel items c p` holds when some item is titled `c` and declares the
truthy parent title `p`. -/
def parentRel (items : List PageItem) (c p : String) : Prop :=
  p ≠ "" ∧ ∃ it ∈ items, it.title = c ∧ it.parent_page = p

/-- Fuel-bounded walk up the `parent_page` chain from `t`: `true` iff the
chain reaches an empty parent or a non-title within the fuel. -/
def chainOK (items : List PageItem) : Nat → String → Bool
  | 0, _ => false
  | n + 1, t =>
    match items.find? (fun it => it.title = t) with
    | none => true
    | some it =>
      if it.parent_page = "" then true else chainOK items n it.parent_page

/-- Decidable absence of `parent_page` cycles: from every title the
parent chain terminates within `items.length + 1` steps. -/
def acyclicB (items : List PageItem) : Bool :=
  items.all fun it => chainOK items (items.length + 1) it.title

/-- An item the re-parenting pass never moves: a root (empty
`parent_page`) or an orphan (no item carries its parent title). -/
def rootOrOrphan (items : List PageItem) (it : PageItem) : Prop :=
  it.parent_page = "" ∨ ∀ it2 ∈ items, it2.title ≠ it.parent_page

/-- Both names occur inside the same top-level container of the forest:
the region a toggle click on `x` flips covers exactly the top-level
subtree holding `x`. -/
def sameTopTree (x t : String) (f : List Node) : Bool :=
  f.any fun nd => nodeContains x nd && nodeContains t nd

/-! ## Concrete sample items used to instantiate the theorems -/

/-- A root item titled `A`. -/
def pageA : PageItem := ⟨"A", "", true, false, "", "", false⟩

/-- A child of `A` titled `B`. -/
def pageB : PageItem := ⟨"B", "A", true, false, "", "", false⟩

/-- A child of `B` titled `C`. -/
def pageC : PageItem := ⟨"C", "B", true, false, "", "", false⟩

/-- An orphan whose `parent_page` matches no title. -/
def pageO : PageItem := ⟨"O", "Zed", true, false, "", "", false⟩

/-! ## Basic facts about the forest primitives -/

/-- Custom induction principle for forests of `Node`s: prove a property
of every forest by handling `[]` and a cons whose head's children and
whose tail already satisfy it. -/
theorem forest_ind {P : List Node → Prop}
    (h0 : P [])
    (h1 : ∀ n p d hd cs rest, P cs → P rest → P (Node.mk n p d hd cs :: rest)) :
    ∀ f, P f
  | [] => h0
  | .mk n p d hd cs :: rest =>
    h1 n p d hd cs rest (forest_ind h0 h1 cs) (forest_ind h0 h1 rest)
termination_by f => sizeOf f
decreasing_by
  all_goals (simp; try omega)

theorem countName_append (t : String) :
    ∀ l1 l2 : List Node, countName t (l1 ++ l2) = countName t l1 + countName t l2 := by
  intro l1
  induction l1 using forest_ind with
  | h0 => simp [countName]
  | h1 n p d hd cs rest _ ihr => intro l2; simp [countName, ihr]; omega

theorem occursIn_append (m : Node) :
    ∀ l1 l2 : List Node, OccursIn m (l1 ++ l2) ↔ OccursIn m l1 ∨ OccursIn m l2 := by
  intro l1
  induction l1 using forest_ind with
  | h0 => simp [OccursIn]
  | h1 n p d hd cs rest _ ihr => intro l2; simp [OccursIn, ihr]; tauto

theorem adj_nil (a b : String) : ¬ Adj a b [] := by
  rintro ⟨m, hm, -⟩
  simp [OccursIn] at hm

theorem adj_cons (a b n p : String) (d : Option String) (hd : Bool)
    (cs rest : List Node) :
    Adj a b (Node.mk n p d hd cs :: rest) ↔
      (n = a ∧ ∃ c ∈ cs, c.name = b) ∨ Adj a b cs ∨ Adj a b rest := by
  constructor
  · rintro ⟨m, hm, hname, c, hc, hcb⟩
    rcases (by simpa [OccursIn] using hm) with h | h | h
    · subst h; exact Or.inl ⟨hname, c, hc, hcb⟩
    · exact Or.inr (Or.inl ⟨m, h, hname, c, hc, hcb⟩)
    · exact Or.inr (Or.inr ⟨m, h, hname, c, hc, hcb⟩)
  · rintro (⟨hna, c, hc, hcb⟩ | ⟨m, hm, hname, c, hc, hcb⟩ | ⟨m, hm, hname, c, hc, hcb⟩)
    · exact ⟨Node.mk n p d hd cs, by simp [OccursIn], hna, c, hc, hcb⟩
    · exact ⟨m, by simp [OccursIn, hm, Node.children], hname, c, hc, hcb⟩
    · exact ⟨m, by simp [OccursIn, hm], hname, c, hc, hcb⟩

theorem adj_append (a b : String) (l1 l2 : List Node) :
    Adj a b (l1 ++ l2) ↔ Adj a b l1 ∨ Adj a b l2 := by
  constructor
  · rintro ⟨m, hm, hname, hc⟩
    rcases (occursIn_append m l1 l2).1 hm with h | h
    · exact Or.inl ⟨m, h, hname, hc⟩
    · exact Or.inr ⟨m, h, hname, hc⟩
  · rintro (⟨m, hm, hname, hc⟩ | ⟨m, hm, hname, hc⟩)
    · exact ⟨m, (occursIn_append m l1 l2).2 (Or.inl hm), hname, hc⟩
    · exact ⟨m, (occursIn_append m l1 l2).2 (Or.inr hm), hname, hc⟩

theorem findNode_isSome_iff (t : String) :
    ∀ f, (findNode t f).isSome ↔ 0 < countName t f := by
  intro f
  induction f using forest_ind with
  | h0 => simp [findNode, countName]
  | h1 n p d hd cs rest ihc ihr =>
    by_cases h : n = t
    · simp [findNode, countName, h]
    · simp only [findNode, countName, if_neg h]
      cases hc : findNode t cs with
      | some m => simp [hc] at ihc ⊢; omega
      | none =>
        have : countName t cs = 0 := by
          simp [hc] at ihc; omega
        simp [this, ihr]

theorem extract_isSome (t : String) :
    ∀ f, 0 < countName t f → (extractNode t f).isSome := by
  intro f
  induction f using forest_ind with
  | h0 => simp [countName]
  | h1 n p d hd cs rest ihc ihr =>
    intro hpos
    by_cases h : n = t
    · simp [extractNode, h]
    · simp only [countName, if_neg h] at hpos
      simp only [extractNode, if_neg h]
      cases hc : extractNode t cs with
      | some pr => obtain ⟨m, cs'⟩ := pr; simp
      | none =>
        have h0 : countName t cs = 0 := by
          by_contra hne
          have := ihc (Nat.pos_of_ne_zero hne)
          simp [hc] at this
        cases hr : extractNode t rest with
        | some pr => obtain ⟨m, rest'⟩ := pr; simp
        | none =>
          have h2 : countName t rest = 0 := by
            by_contra hne
            have := ihr (Nat.pos_of_ne_zero hne)
            simp [hr] at this
          omega

theorem extract_name (t : String) :
    ∀ f nd f', extractNode t f = some (nd, f') → nd.name = t := by
  intro f
  induction f using forest_ind with
  | h0 => intro nd f' h; simp [extractNode] at h
  | h1 n p d hd cs rest ihc ihr =>
    intro nd f' hext
    by_cases h : n = t
    · simp only [extractNode, if_pos h] at hext
      simp only [Option.some.injEq, Prod.mk.injEq] at hext
      rw [← hext.1]
      simpa [Node.name] using h
    · simp only [extractNode, if_neg h] at hext
      cases hc : extractNode t cs with
      | some pr =>
        obtain ⟨m, cs'⟩ := pr
        rw [hc] at hext
        simp only [Option.some.injEq, Prod.mk.injEq] at hext
        rw [← hext.1]
        exact ihc m cs' hc
      | none =>
        rw [hc] at hext
        cases hr : extractNode t rest with
        | some pr =>
          obtain ⟨m, rest'⟩ := pr
          rw [hr] at hext
          simp only [Option.some.injEq, Prod.mk.injEq] at hext
          rw [← hext.1]
          exact ihr m rest' hr
        | none => rw [hr] at hext; simp at hext

theorem extract_count (t : String) :
    ∀ f nd f', extractNode t f = some (nd, f') →
      ∀ s, countName s f = countName s [nd] + countName s f' := by
  intro f
  induction f using forest_ind with
  | h0 => intro nd f' h; simp [extractNode] at h
  | h1 n p d hd cs rest ihc ihr =>
    intro nd f' hext s
    by_cases h : n = t
    · simp only [extractNode, if_pos h] at hext
      simp only [Option.some.injEq, Prod.mk.injEq] at hext
      rw [← hext.1, ← hext.2]
      simp [countName]
      try omega
    · simp only [extractNode, if_neg h] at hext
      cases hc : extractNode t cs with
      | some pr =>
        obtain ⟨m, cs'⟩ := pr
        rw [hc] at hext
        simp only [Option.some.injEq, Prod.mk.injEq] at hext
        rw [← hext.1, ← hext.2]
        have := ihc m cs' hc s
        simp [countName]
        omega
      | none =>
        rw [hc] at hext
        cases hr : extractNode t rest with
        | some pr =>
          obtain ⟨m, rest'⟩ := pr
          rw [hr] at hext
          simp only [Option.some.injEq, Prod.mk.injEq] at hext
          rw [← hext.1, ← hext.2]
          have := ihr m rest' hr s
          simp [countName]
          omega
        | none => rw [hr] at hext; simp at hext

theorem extract_top_keep (t : String) :
    ∀ f nd f', extractNode t f = some (nd, f') →
      ∀ q, q ≠ t → q ∈ f.map Node.name → q ∈ f'.map Node.name := by
  intro f
  induction f using forest_ind with
  | h0 => intro nd f' h; simp [extractNode] at h
  | h1 n p d hd cs rest ihc ihr =>
    intro nd f' hext q hq hmem
    by_cases h : n = t
    · simp only [extractNode, if_pos h] at hext
      simp only [Option.some.injEq, Prod.mk.injEq] at hext
      rw [← hext.2]
      rcases (by simpa [Node.name] using hmem : q = n ∨ q ∈ rest.map Node.name) with
        h1 | h1
      · exact absurd (h1.trans h) hq
      · exact h1
    · simp only [extractNode, if_neg h] at hext
      cases hc : extractNode t cs with
      | some pr =>
        obtain ⟨m, cs'⟩ := pr
        rw [hc] at hext
        simp only [Option.some.injEq, Prod.mk.injEq] at hext
        rw [← hext.2]
        simpa [Node.name] using hmem
      | none =>
        rw [hc] at hext
        cases hr : extractNode t rest with
        | some pr =>
          obtain ⟨m, rest'⟩ := pr
          rw [hr] at hext
          simp only [Option.some.injEq, Prod.mk.injEq] at hext
          rw [← hext.2]
          rcases (by simpa [Node.name] using hmem : q = n ∨ q ∈ rest.map Node.name) with
            h1 | h1
          · simp [Node.name, h1]
          · simp [Node.name]
            exact Or.inr (by simpa [Node.name] using ihr m rest' hr q hq h1)
        | none => rw [hr] at hext; simp at hext

theorem extract_top_back (t : String) :
    ∀ f nd f', extractNode t f = some (nd, f') →
      ∀ q, q ∈ f'.map Node.name → q ∈ f.map Node.name := by
  intro f
  induction f using forest_ind with
  | h0 => intro nd f' h; simp [extractNode] at h
  | h1 n p d hd cs rest ihc ihr =>
    intro nd f' hext q hmem
    by_cases h : n = t
    · simp only [extractNode, if_pos h] at hext
      simp only [Option.some.injEq, Prod.mk.injEq] at hext
      rw [← hext.2] at hmem
      rw [List.map_cons]
      exact List.mem_cons_of_mem _ hmem
    · simp only [extractNode, if_neg h] at hext
      cases hc : extractNode t cs with
      | some pr =>
        obtain ⟨m, cs'⟩ := pr
        rw [hc] at hext
        simp only [Option.some.injEq, Prod.mk.injEq] at hext
        rw [← hext.2] at hmem
        simpa [Node.name] using hmem
      | none =>
        rw [hc] at hext
        cases hr : extractNode t rest with
        | some pr =>
          obtain ⟨m, rest'⟩ := pr
          rw [hr] at hext
          simp only [Option.some.injEq, Prod.mk.injEq] at hext
          rw [← hext.2] at hmem
          rcases (by simpa [Node.name] using hmem : q = n ∨ q ∈ rest'.map Node.name) with
            h1 | h1
          · simp [Node.name, h1]
          · simp [Node.name]
            exact Or.inr (by simpa [Node.name] using ihr m rest' hr q h1)
        | none => rw [hr] at hext; simp at hext

theorem extract_adj_back (t : String) :
    ∀ f nd f', extractNode t f = some (nd, f') →
      ∀ a b, Adj a b f' → Adj a b f := by
  intro f
  induction f using forest_ind with
  | h0 => intro nd f' h; simp [extractNode] at h
  | h1 n p d hd cs rest ihc ihr =>
    intro nd f' hext a b hadj
    by_cases h : n = t
    · simp only [extractNode, if_pos h] at hext
      simp only [Option.some.injEq, Prod.mk.injEq] at hext
      rw [← hext.2] at hadj
      exact (adj_cons a b n p d hd cs rest).2 (Or.inr (Or.inr hadj))
    · simp only [extractNode, if_neg h] at hext
      cases hc : extractNode t cs with
      | some pr =>
        obtain ⟨m, cs'⟩ := pr
        rw [hc] at hext
        simp only [Option.some.injEq, Prod.mk.injEq] at hext
        rw [← hext.2] at hadj
        rcases (adj_cons a b n p d hd cs' rest).1 hadj with
          ⟨hna, c', hc', hcb⟩ | hadj' | hadj'
        · have hb : b ∈ cs.map Node.name :=
            extract_top_back t cs m cs' hc b (List.mem_map.2 ⟨c', hc', hcb⟩)
          obtain ⟨c, hcmem, hcname⟩ := List.mem_map.1 hb
          exact (adj_cons a b n p d hd cs rest).2 (Or.inl ⟨hna, c, hcmem, hcname⟩)
        · exact (adj_cons a b n p d hd cs rest).2 (Or.inr (Or.inl (ihc m cs' hc a b hadj')))
        · exact (adj_cons a b n p d hd cs rest).2 (Or.inr (Or.inr hadj'))
      | none =>
        rw [hc] at hext
        cases hr : extractNode t rest with
        | some pr =>
          obtain ⟨m, rest'⟩ := pr
          rw [hr] at hext
          simp only [Option.some.injEq, Prod.mk.injEq] at hext
          rw [← hext.2] at hadj
          rcases (adj_cons a b n p d hd cs rest').1 hadj with
            hh | hadj' | hadj'
          · exact (adj_cons a b n p d hd cs rest).2 (Or.inl hh)
          · exact (adj_cons a b n p d hd cs rest).2 (Or.inr (Or.inl hadj'))
          · exact (adj_cons a b n p d hd cs rest).2
              (Or.inr (Or.inr (ihr m rest' hr a b hadj')))
        | none => rw [hr] at hext; simp at hext

theorem extract_adj_nd (t : String) :
    ∀ f nd f', extractNode t f = some (nd, f') →
      ∀ a b, Adj a b [nd] → Adj a b f := by
  intro f
  induction f using forest_ind with
  | h0 => intro nd f' h; simp [extractNode] at h
  | h1 n p d hd cs rest ihc ihr =>
    intro nd f' hext a b hadj
    by_cases h : n = t
    · simp only [extractNode, if_pos h] at hext
      simp only [Option.some.injEq, Prod.mk.injEq] at hext
      rw [← hext.1] at hadj
      rcases (adj_cons a b n p d hd cs []).1 hadj with hh | hadj' | hadj'
      · exact (adj_cons a b n p d hd cs rest).2 (Or.inl hh)
      · exact (adj_cons a b n p d hd cs rest).2 (Or.inr (Or.inl hadj'))
      · exact absurd hadj' (adj_nil a b)
    · simp only [extractNode, if_neg h] at hext
      cases hc : extractNode t cs with
      | some pr =>
        obtain ⟨m, cs'⟩ := pr
        rw [hc] at hext
        simp only [Option.some.injEq, Prod.mk.injEq] at hext
        rw [← hext.1] at hadj
        exact (adj_cons a b n p d hd cs rest).2 (Or.inr (Or.inl (ihc m cs' hc a b hadj)))
      | none =>
        rw [hc] at hext
        cases hr : extractNode t rest with
        | some pr =>
          obtain ⟨m, rest'⟩ := pr
          rw [hr] at hext
          simp only [Option.some.injEq, Prod.mk.injEq] at hext
          rw [← hext.1] at hadj
          exact (adj_cons a b n p d hd cs rest).2
            (Or.inr (Or.inr (ihr m rest' hr a b hadj)))
        | none => rw [hr] at hext; simp at hext

theorem extract_adj_pres (t : String) :
    ∀ f nd f', extractNode t f = some (nd, f') →
      ∀ a b, b ≠ t → Adj a b f → Adj a b f' ∨ Adj a b [nd] := by
  intro f
  induction f using forest_ind with
  | h0 => intro nd f' h; simp [extractNode] at h
  | h1 n p d hd cs rest ihc ihr =>
    intro nd f' hext a b hbt hadj
    by_cases h : n = t
    · simp only [extractNode, if_pos h] at hext
      simp only [Option.some.injEq, Prod.mk.injEq] at hext
      rcases (adj_cons a b n p d hd cs rest).1 hadj with hh | hadj' | hadj'
      · refine Or.inr ?_
        rw [← hext.1]
        exact (adj_cons a b n p d hd cs []).2 (Or.inl hh)
      · refine Or.inr ?_
        rw [← hext.1]
        exact (adj_cons a b n p d hd cs []).2 (Or.inr (Or.inl hadj'))
      · refine Or.inl ?_
        rw [← hext.2]
        exact hadj'
    · simp only [extractNode, if_neg h] at hext
      cases hc : extractNode t cs with
      | some pr =>
        obtain ⟨m, cs'⟩ := pr
        rw [hc] at hext
        simp only [Option.some.injEq, Prod.mk.injEq] at hext
        rcases (adj_cons a b n p d hd cs rest).1 hadj with
          ⟨hna, c, hcmem, hcb⟩ | hadj' | hadj'
        · have hb : b ∈ cs'.map Node.name :=
            extract_top_keep t cs m cs' hc b hbt (List.mem_map.2 ⟨c, hcmem, hcb⟩)
          obtain ⟨c', hc'mem, hc'name⟩ := List.mem_map.1 hb
          refine Or.inl ?_
          rw [← hext.2]
          exact (adj_cons a b n p d hd cs' rest).2 (Or.inl ⟨hna, c', hc'mem, hc'name⟩)
        · rcases ihc m cs' hc a b hbt hadj' with h1 | h1
          · refine Or.inl ?_
            rw [← hext.2]
            exact (adj_cons a b n p d hd cs' rest).2 (Or.inr (Or.inl h1))
          · rw [← hext.1]
            exact Or.inr h1
        · refine Or.inl ?_
          rw [← hext.2]
          exact (adj_cons a b n p d hd cs' rest).2 (Or.inr (Or.inr hadj'))
      | none =>
        rw [hc] at hext
        cases hr : extractNode t rest with
        | some pr =>
          obtain ⟨m, rest'⟩ := pr
          rw [hr] at hext
          simp only [Option.some.injEq, Prod.mk.injEq] at hext
          rcases (adj_cons a b n p d hd cs rest).1 hadj with hh | hadj' | hadj'
          · refine Or.inl ?_
            rw [← hext.2]
            exact (adj_cons a b n p d hd cs rest').2 (Or.inl hh)
          · refine Or.inl ?_
            rw [← hext.2]
            exact (adj_cons a b n p d hd cs rest').2 (Or.inr (Or.inl hadj'))
          · rcases ihr m rest' hr a b hbt hadj' with h1 | h1
            · refine Or.inl ?_
              rw [← hext.2]
              exact (adj_cons a b n p d hd cs rest').2 (Or.inr (Or.inr h1))
            · rw [← hext.1]
              exact Or.inr h1
        | none => rw [hr] at hext; simp at hext

theorem attach_isSome (p : String) (child : Node) :
    ∀ f, 0 < countName p f → (attachTo p child f).isSome := by
  intro f
  induction f using forest_ind with
  | h0 => simp [countName]
  | h1 n pa d hd cs rest ihc ihr =>
    intro hpos
    by_cases h : n = p
    · simp [attachTo, h]
    · simp only [countName, if_neg h] at hpos
      simp only [attachTo, if_neg h]
      cases hc : attachTo p child cs with
      | some cs' => simp
      | none =>
        have h0 : countName p cs = 0 := by
          by_contra hne
          have := ihc (Nat.pos_of_ne_zero hne)
          simp [hc] at this
        cases hr : attachTo p child rest with
        | some rest' => simp
        | none =>
          have h2 : countName p rest = 0 := by
            by_contra hne
            have := ihr (Nat.pos_of_ne_zero hne)
            simp [hr] at this
          omega

theorem attach_count (p : String) (child : Node) :
    ∀ f f'', attachTo p child f = some f'' →
      ∀ s, countName s f'' = countName s f + countName s [child] := by
  intro f
  induction f using forest_ind with
  | h0 => intro f'' h; simp [attachTo] at h
  | h1 n pa d hd cs rest ihc ihr =>
    intro f'' hatt s
    by_cases h : n = p
    · simp only [attachTo, if_pos h, Option.some.injEq] at hatt
      rw [← hatt]
      simp [countName, countName_append]
      omega
    · simp only [attachTo, if_neg h] at hatt
      cases hc : attachTo p child cs with
      | some cs' =>
        rw [hc] at hatt
        simp only [Option.some.injEq] at hatt
        rw [← hatt]
        have := ihc cs' hc s
        simp [countName]
        omega
      | none =>
        rw [hc] at hatt
        cases hr : attachTo p child rest with
        | some rest' =>
          rw [hr] at hatt
          simp only [Option.some.injEq] at hatt
          rw [← hatt]
          have := ihr rest' hr s
          simp [countName]
          omega
        | none => rw [hr] at hatt; simp at hatt

theorem attach_topnames (p : String) (child : Node) :
    ∀ f f'', attachTo p child f = some f'' →
      f''.map Node.name = f.map Node.name := by
  intro f
  induction f using forest_ind with
  | h0 => intro f'' h; simp [attachTo] at h
  | h1 n pa d hd cs rest ihc ihr =>
    intro f'' hatt
    by_cases h : n = p
    · simp only [attachTo, if_pos h, Option.some.injEq] at hatt
      rw [← hatt]
      simp [Node.name]
    · simp only [attachTo, if_neg h] at hatt
      cases hc : attachTo p child cs with
      | some cs' =>
        rw [hc] at hatt
        simp only [Option.some.injEq] at hatt
        rw [← hatt]
        simp [Node.name]
      | none =>
        rw [hc] at hatt
        cases hr : attachTo p child rest with
        | some rest' =>
          rw [hr] at hatt
          simp only [Option.some.injEq] at hatt
          rw [← hatt]
          simp [Node.name, ihr rest' hr]
        | none => rw [hr] at hatt; simp at hatt


theorem attach_adj_cases (p : String) (child : Node) :
    ∀ f f'', attachTo p child f = some f'' →
      ∀ a b, Adj a b f'' →
        Adj a b f ∨ Adj a b [child] ∨ (a = p ∧ b = child.name) := by
  intro f
  induction f using forest_ind with
  | h0 => intro f'' h; simp [attachTo] at h
  | h1 n pa d hd cs rest ihc ihr =>
    intro f'' hatt a b hadj
    by_cases h : n = p
    · simp only [attachTo, if_pos h, Option.some.injEq] at hatt
      rw [← hatt] at hadj
      rcases (adj_cons a b n pa _ true (cs ++ [child]) rest).1 hadj with
        ⟨hna, c, hcmem, hcb⟩ | hadj' | hadj'
      · rcases List.mem_append.1 hcmem with hcs | hone
        · exact Or.inl ((adj_cons a b n pa d hd cs rest).2 (Or.inl ⟨hna, c, hcs, hcb⟩))
        · have hcc : c = child := by simpa using hone
          subst hcc
          exact Or.inr (Or.inr ⟨hna ▸ h, hcb.symm ▸ rfl⟩)
      · rcases (adj_append a b cs [child]).1 hadj' with h1 | h1
        · exact Or.inl ((adj_cons a b n pa d hd cs rest).2 (Or.inr (Or.inl h1)))
        · exact Or.inr (Or.inl h1)
      · exact Or.inl ((adj_cons a b n pa d hd cs rest).2 (Or.inr (Or.inr hadj')))
    · simp only [attachTo, if_neg h] at hatt
      cases hc : attachTo p child cs with
      | some cs' =>
        rw [hc] at hatt
        simp only [Option.some.injEq] at hatt
        rw [← hatt] at hadj
        rcases (adj_cons a b n pa d hd cs' rest).1 hadj with
          ⟨hna, c', hc'mem, hc'b⟩ | hadj' | hadj'
        · have hb : b ∈ cs.map Node.name := by
            rw [← attach_topnames p child cs cs' hc]
            exact List.mem_map.2 ⟨c', hc'mem, hc'b⟩
          obtain ⟨c0, hc0, hc0b⟩ := List.mem_map.1 hb
          exact Or.inl ((adj_cons a b n pa d hd cs rest).2 (Or.inl ⟨hna, c0, hc0, hc0b⟩))
        · rcases ihc cs' hc a b hadj' with h1 | h1 | h1
          · exact Or.inl ((adj_cons a b n pa d hd cs rest).2 (Or.inr (Or.inl h1)))
          · exact Or.inr (Or.inl h1)
          · exact Or.inr (Or.inr h1)
        · exact Or.inl ((adj_cons a b n pa d hd cs rest).2 (Or.inr (Or.inr hadj')))
      | none =>
        rw [hc] at hatt
        cases hr : attachTo p child rest with
        | some rest' =>
          rw [hr] at hatt
          simp only [Option.some.injEq] at hatt
          rw [← hatt] at hadj
          rcases (adj_cons a b n pa d hd cs rest').1 hadj with hh | hadj' | hadj'
          · exact Or.inl ((adj_cons a b n pa d hd cs rest).2 (Or.inl hh))
          · exact Or.inl ((adj_cons a b n pa d hd cs rest).2 (Or.inr (Or.inl hadj')))
          · rcases ihr rest' hr a b hadj' with h1 | h1 | h1
            · exact Or.inl ((adj_cons a b n pa d hd cs rest).2 (Or.inr (Or.inr h1)))
            · exact Or.inr (Or.inl h1)
            · exact Or.inr (Or.inr h1)
        | none => rw [hr] at hatt; simp at hatt

theorem attach_adj_mono (p : String) (child : Node) :
    ∀ f f'', attachTo p child f = some f'' →
      ∀ a b, Adj a b f → Adj a b f'' := by
  intro f
  induction f using forest_ind with
  | h0 => intro f'' h; simp [attachTo] at h
  | h1 n pa d hd cs rest ihc ihr =>
    intro f'' hatt a b hadj
    by_cases h : n = p
    · simp only [attachTo, if_pos h, Option.some.injEq] at hatt
      rw [← hatt]
      rcases (adj_cons a b n pa d hd cs rest).1 hadj with
        ⟨hna, c, hcmem, hcb⟩ | hadj' | hadj'
      · exact (adj_cons a b n pa _ true (cs ++ [child]) rest).2
          (Or.inl ⟨hna, c, List.mem_append.2 (Or.inl hcmem), hcb⟩)
      · exact (adj_cons a b n pa _ true (cs ++ [child]) rest).2
          (Or.inr (Or.inl ((adj_append a b cs [child]).2 (Or.inl hadj'))))
      · exact (adj_cons a b n pa _ true (cs ++ [child]) rest).2 (Or.inr (Or.inr hadj'))
    · simp only [attachTo, if_neg h] at hatt
      cases hc : attachTo p child cs with
      | some cs' =>
        rw [hc] at hatt
        simp only [Option.some.injEq] at hatt
        rw [← hatt]
        rcases (adj_cons a b n pa d hd cs rest).1 hadj with
          ⟨hna, c, hcmem, hcb⟩ | hadj' | hadj'
        · have hb : b ∈ cs'.map Node.name := by
            rw [attach_topnames p child cs cs' hc]
            exact List.mem_map.2 ⟨c, hcmem, hcb⟩
          obtain ⟨c', hc', hc'b⟩ := List.mem_map.1 hb
          exact (adj_cons a b n pa d hd cs' rest).2 (Or.inl ⟨hna, c', hc', hc'b⟩)
        · exact (adj_cons a b n pa d hd cs' rest).2 (Or.inr (Or.inl (ihc cs' hc a b hadj')))
        · exact (adj_cons a b n pa d hd cs' rest).2 (Or.inr (Or.inr hadj'))
      | none =>
        rw [hc] at hatt
        cases hr : attachTo p child rest with
        | some rest' =>
          rw [hr] at hatt
          simp only [Option.some.injEq] at hatt
          rw [← hatt]
          rcases (adj_cons a b n pa d hd cs rest).1 hadj with hh | hadj' | hadj'
          · exact (adj_cons a b n pa d hd cs rest').2 (Or.inl hh)
          · exact (adj_cons a b n pa d hd cs rest').2 (Or.inr (Or.inl hadj'))
          · exact (adj_cons a b n pa d hd cs rest').2
              (Or.inr (Or.inr (ihr rest' hr a b hadj')))
        | none => rw [hr] at hatt; simp at hatt

theorem attach_adj_child (p : String) (child : Node) :
    ∀ f f'', attachTo p child f = some f'' →
      ∀ a b, Adj a b [child] → Adj a b f'' := by
  intro f
  induction f using forest_ind with
  | h0 => intro f'' h; simp [attachTo] at h
  | h1 n pa d hd cs rest ihc ihr =>
    intro f'' hatt a b hadj
    by_cases h : n = p
    · simp only [attachTo, if_pos h, Option.some.injEq] at hatt
      rw [← hatt]
      exact (adj_cons a b n pa _ true (cs ++ [child]) rest).2
        (Or.inr (Or.inl ((adj_append a b cs [child]).2 (Or.inr hadj))))
    · simp only [attachTo, if_neg h] at hatt
      cases hc : attachTo p child cs with
      | some cs' =>
        rw [hc] at hatt
        simp only [Option.some.injEq] at hatt
        rw [← hatt]
        exact (adj_cons a b n pa d hd cs' rest).2 (Or.inr (Or.inl (ihc cs' hc a b hadj)))
      | none =>
        rw [hc] at hatt
        cases hr : attachTo p child rest with
        | some rest' =>
          rw [hr] at hatt
          simp only [Option.some.injEq] at hatt
          rw [← hatt]
          exact (adj_cons a b n pa d hd cs rest').2
            (Or.inr (Or.inr (ihr rest' hr a b hadj)))
        | none => rw [hr] at hatt; simp at hatt

theorem attach_adj_new (p : String) (child : Node) :
    ∀ f f'', attachTo p child f = some f'' → Adj p child.name f'' := by
  intro f
  induction f using forest_ind with
  | h0 => intro f'' h; simp [attachTo] at h
  | h1 n pa d hd cs rest ihc ihr =>
    intro f'' hatt
    by_cases h : n = p
    · simp only [attachTo, if_pos h, Option.some.injEq] at hatt
      rw [← hatt]
      exact (adj_cons p child.name n pa _ true (cs ++ [child]) rest).2
        (Or.inl ⟨h, child, List.mem_append.2 (Or.inr (List.mem_singleton.2 rfl)), rfl⟩)
    · simp only [attachTo, if_neg h] at hatt
      cases hc : attachTo p child cs with
      | some cs' =>
        rw [hc] at hatt
        simp only [Option.some.injEq] at hatt
        rw [← hatt]
        exact (adj_cons p child.name n pa d hd cs' rest).2 (Or.inr (Or.inl (ihc cs' hc)))
      | none =>
        rw [hc] at hatt
        cases hr : attachTo p child rest with
        | some rest' =>
          rw [hr] at hatt
          simp only [Option.some.injEq] at hatt
          rw [← hatt]
          exact (adj_cons p child.name n pa d hd cs rest').2
            (Or.inr (Or.inr (ihr rest' hr)))
        | none => rw [hr] at hatt; simp at hatt

/-- Induction principle for a single `Node` via its children. -/
theorem node_ind {P : Node → Prop}
    (h : ∀ n p d hd cs, (∀ c ∈ cs, P c) → P (Node.mk n p d hd cs)) :
    ∀ nd, P nd
  | .mk n p d hd cs => h n p d hd cs fun c hc => node_ind h c
termination_by nd => sizeOf nd
decreasing_by
  have := List.sizeOf_lt_of_mem hc
  simp
  omega

theorem countName_cons (t : String) (nd : Node) (rest : List Node) :
    countName t (nd :: rest) = countName t [nd] + countName t rest := by
  cases nd with
  | mk n p d hd cs => simp [countName]; try omega

theorem count_pos_exists_top (t : String) :
    ∀ g, 0 < countName t g → ∃ c ∈ g, 0 < countName t [c] := by
  intro g
  induction g using forest_ind with
  | h0 => simp [countName]
  | h1 n p d hd cs rest _ ihr =>
    intro hpos
    rw [countName_cons] at hpos
    by_cases hh : 0 < countName t [Node.mk n p d hd cs]
    · exact ⟨_, List.mem_cons_self _ _, hh⟩
    · have : 0 < countName t rest := by omega
      obtain ⟨c, hc, hcpos⟩ := ihr this
      exact ⟨c, List.mem_cons_of_mem _ hc, hcpos⟩

theorem occ_top : ∀ (g : List Node) (c : Node), c ∈ g → OccursIn c g := by
  intro g
  induction g using forest_ind with
  | h0 => simp
  | h1 n p d hd cs rest _ ihr =>
    intro c hc
    rcases List.mem_cons.1 hc with h | h
    · simp [OccursIn, h]
    · simp [OccursIn, ihr c h]

theorem occ_child :
    ∀ (g : List Node) (nd : Node), OccursIn nd g →
      ∀ c ∈ nd.children, OccursIn c g := by
  intro g
  induction g using forest_ind with
  | h0 => simp [OccursIn]
  | h1 n p d hd cs rest ihc ihr =>
    intro nd hocc c hc
    rcases (by simpa [OccursIn] using hocc :
        nd = Node.mk n p d hd cs ∨ OccursIn nd cs ∨ OccursIn nd rest) with h | h | h
    · subst h
      simp only [Node.children] at hc
      simp [OccursIn, occ_top cs c hc]
    · simp [OccursIn, ihc nd h c hc]
    · simp [OccursIn, ihr nd h c hc]

/-- A name occurring strictly inside an occurring subtree is linked to
the subtree's root by a chain of child-to-parent `Adj` edges of the
ambient forest, hence by `R` whenever every `Adj` edge maps into `R`. -/
theorem occ_chain (g : List Node) (R : String → String → Prop)
    (hR : ∀ a b, Adj a b g → R b a) :
    ∀ nd, OccursIn nd g → ∀ q, 0 < countName q [nd] →
      q = nd.name ∨ Relation.TransGen R q nd.name := by
  intro nd
  induction nd using node_ind with
  | h n p d hd cs ih =>
    intro hocc q hq
    by_cases hname : n = q
    · exact Or.inl (by simp [Node.name, hname])
    · have hcs : 0 < countName q cs := by
        simp only [countName, if_neg hname] at hq
        omega
      obtain ⟨c, hc, hcpos⟩ := count_pos_exists_top q cs hcs
      have hoccc : OccursIn c g :=
        occ_child g (Node.mk n p d hd cs) hocc c (by simpa [Node.children] using hc)
      have hedge : R c.name (Node.mk n p d hd cs).name := by
        refine hR (Node.mk n p d hd cs).name c.name ?_
        exact ⟨Node.mk n p d hd cs, hocc, rfl, c, by simpa [Node.children] using hc, rfl⟩
      rcases ih c hc hoccc q hcpos with h1 | h1
      · exact Or.inr (Relation.TransGen.single (h1 ▸ hedge))
      · exact Or.inr (Relation.TransGen.tail h1 hedge)

theorem title_inj {items : List PageItem}
    (hnd : (items.map PageItem.title).Nodup) :
    ∀ it1 ∈ items, ∀ it2 ∈ items, it1.title = it2.title → it1 = it2 := by
  intro it1 h1 it2 h2 heq
  exact List.inj_on_of_nodup_map hnd h1 h2 heq

theorem chain_step {items : List PageItem}
    (hnd : (items.map PageItem.title).Nodup) {c p : String}
    (hrel : parentRel items c p) :
    ∀ n, chainOK items (n + 1) c = true → chainOK items n p = true := by
  obtain ⟨hp, it, hmem, htit, hpar⟩ := hrel
  intro n hchain
  rw [chainOK] at hchain
  cases hfind : items.find? (fun it2 => it2.title = c) with
  | none =>
    have := List.find?_eq_none.1 hfind it hmem
    simp [htit] at this
  | some it0 =>
    have h0mem : it0 ∈ items := List.mem_of_find?_eq_some hfind
    have h0tit : it0.title = c := by simpa using List.find?_some hfind
    have : it0 = it := title_inj hnd it0 h0mem it hmem (h0tit.trans htit.symm)
    subst this
    rw [hfind] at hchain
    have hchain2 : (if it0.parent_page = "" then true
        else chainOK items n it0.parent_page) = true := hchain
    rw [hpar] at hchain2
    simpa [hp] using hchain2

theorem transGen_first {α : Type} {r : α → α → Prop} {a b : α}
    (h : Relation.TransGen r a b) : ∃ c, r a c := by
  induction h with
  | single h => exact ⟨_, h⟩
  | tail _ _ ih => exact ih

theorem transGen_chain {items : List PageItem}
    (hnd : (items.map PageItem.title).Nodup) {c d : String}
    (h : Relation.TransGen (parentRel items) c d) :
    ∀ n, chainOK items n c = true → ∃ m, m < n ∧ chainOK items m d = true := by
  induction h with
  | single hcd =>
    intro n hn
    cases n with
    | zero => simp [chainOK] at hn
    | succ k => exact ⟨k, Nat.lt_succ_self k, chain_step hnd hcd k hn⟩
  | tail hcb hbd ih =>
    intro n hn
    obtain ⟨m, hm, hcm⟩ := ih n hn
    cases m with
    | zero => simp [chainOK] at hcm
    | succ k =>
      exact ⟨k, Nat.lt_of_lt_of_le (Nat.lt_succ_self k) (Nat.le_of_lt hm),
        chain_step hnd hbd k hcm⟩

theorem no_cycle_fuel {items : List PageItem}
    (hnd : (items.map PageItem.title).Nodup) :
    ∀ n t, chainOK items n t = true →
      ¬ Relation.TransGen (parentRel items) t t := by
  intro n
  induction n using Nat.strong_induction_on with
  | _ n ih =>
    intro t hchain hcyc
    obtain ⟨m, hm, hcm⟩ := transGen_chain hnd hcyc n hchain
    exact ih m hm t hcm hcyc

/-- `acyclicB` certifies absence of transitive `parent_page` cycles. -/
theorem acyclic_no_cycle {items : List PageItem}
    (hacy : acyclicB items = true)
    (hnd : (items.map PageItem.title).Nodup) :
    ∀ t, ¬ Relation.TransGen (parentRel items) t t := by
  intro t hcyc
  obtain ⟨c, hc⟩ := transGen_first hcyc
  obtain ⟨-, it, hmem, htit, -⟩ := hc
  have := (List.all_eq_true.1 hacy) it hmem
  rw [htit] at this
  exact no_cycle_fuel hnd (items.length + 1) t (by simpa using this) hcyc

theorem initForest_count (t : String) :
    ∀ items : List PageItem,
      countName t (initForest items) =
        (items.filter fun it => it.title = t).length := by
  intro items
  induction items with
  | nil => simp [initForest, countName]
  | cons a l ih =>
    simp only [initForest, List.map_cons, initNode, countName, List.filter_cons]
    by_cases h : a.title = t
    · simp only [if_pos h, decide_eq_true_eq] at *
      simp [h, initForest] at ih ⊢
      omega
    · simp only [if_neg h, decide_eq_true_eq] at *
      simp [h, initForest] at ih ⊢
      omega

theorem initForest_topnames :
    ∀ items : List PageItem,
      (initForest items).map Node.name = items.map PageItem.title := by
  intro items
  induction items with
  | nil => rfl
  | cons a l ih => simpa [initForest, initNode, Node.name] using ih

theorem initForest_children :
    ∀ items : List PageItem, ∀ m, OccursIn m (initForest items) →
      m.children = [] := by
  intro items
  induction items with
  | nil => simp [initForest, OccursIn]
  | cons a l ih =>
    intro m hm
    rcases (by simpa [initForest, initNode, OccursIn] using hm :
        m = Node.mk a.title a.parent_page none true [] ∨
          OccursIn m (initForest l)) with h | h
    · subst h; rfl
    · exact ih m h

theorem initForest_no_adj (a b : String) (items : List PageItem) :
    ¬ Adj a b (initForest items) := by
  rintro ⟨m, hocc, -, c, hc, -⟩
  rw [initForest_children items m hocc] at hc
  simp at hc

theorem filter_title_pos {items : List PageItem} {it : PageItem}
    (hmem : it ∈ items) :
    0 < (items.filter fun it2 => it2.title = it.title).length := by
  induction items with
  | nil => simp at hmem
  | cons a l ih =>
    rcases List.mem_cons.1 hmem with h | h
    · subst h; simp [List.filter_cons]
    · simp only [List.filter_cons]
      by_cases hh : a.title = it.title
      · simp [hh]
      · simpa [hh] using ih h

theorem filter_title_le_one {items : List PageItem}
    (hnd : (items.map PageItem.title).Nodup) (t : String) :
    (items.filter fun it2 => it2.title = t).length ≤ 1 := by
  induction items with
  | nil => simp
  | cons a l ih =>
    simp only [List.map_cons, List.nodup_cons] at hnd
    simp only [List.filter_cons]
    by_cases hh : a.title = t
    · have hnil : (l.filter fun it2 => it2.title = t) = [] := by
        rw [List.filter_eq_nil_iff]
        intro it2 hit2
        simp only [decide_eq_true_eq]
        intro hcon
        exact hnd.1 (List.mem_map.2 ⟨it2, hit2, hcon.trans hh.symm⟩)
      simp [hh, hnil]
    · simpa [hh] using ih hnd.2

theorem init_count_title {items : List PageItem} {p : String}
    (hpos : 0 < countName p (initForest items)) :
    ∃ j ∈ items, j.title = p := by
  rw [initForest_count] at hpos
  obtain ⟨j, hj⟩ := List.exists_mem_of_length_pos hpos
  exact ⟨j, List.mem_of_mem_filter hj, by simpa using List.of_mem_filter hj⟩

theorem done_title_ne {items done todo : List PageItem} {i : PageItem}
    (hnd : (items.map PageItem.title).Nodup)
    (hsplit : items = done ++ i :: todo) :
    ∀ it ∈ done, it.title ≠ i.title := by
  intro it hit hcon
  subst hsplit
  rw [List.map_append] at hnd
  rcases List.nodup_append.1 hnd with ⟨-, -, hdisj⟩
  exact hdisj (List.mem_map.2 ⟨it, hit, rfl⟩)
    (by rw [hcon]; simp)

/-- Invariant of the re-parenting pass: folding `step` over any suffix
`todo` of the items (with `done` already processed) preserves the
per-name node count, keeps roots and orphans at the top level, creates
only `parent_page`-declared edges, and keeps every processed item whose
truthy parent title exists attached under that parent. -/
theorem build_invariant (items : List PageItem)
    (hnd : (items.map PageItem.title).Nodup)
    (hacy : acyclicB items = true) :
    ∀ todo done f,
      items = done ++ todo →
      (∀ t, countName t f = countName t (initForest items)) →
      (∀ it ∈ items, rootOrOrphan items it → it.title ∈ f.map Node.name) →
      (∀ a b, Adj a b f →
        ∃ it ∈ done, it.title = b ∧ it.parent_page = a ∧ a ≠ "") →
      (∀ it ∈ done, it.parent_page ≠ "" →
        (∃ j ∈ items, j.title = it.parent_page) →
        Adj it.parent_page it.title f) →
      ((∀ t, countName t ((todo.map fun it => (it.title, it.parent_page)).foldl
          list_sidebar.step f) = countName t (initForest items)) ∧
       (∀ it ∈ items, rootOrOrphan items it →
          it.title ∈ (((todo.map fun it => (it.title, it.parent_page)).foldl
            list_sidebar.step f).map Node.name)) ∧
       (∀ a b, Adj a b ((todo.map fun it => (it.title, it.parent_page)).foldl
          list_sidebar.step f) →
          ∃ it ∈ items, it.title = b ∧ it.parent_page = a ∧ a ≠ "") ∧
       (∀ it ∈ items, it.parent_page ≠ "" →
          (∃ j ∈ items, j.title = it.parent_page) →
          Adj it.parent_page it.title
            ((todo.map fun it => (it.title, it.parent_page)).foldl
              list_sidebar.step f))) := by
  intro todo
  induction todo with
  | nil =>
    intro done f hsplit hcount htop hedge hatt
    simp only [List.map_nil, List.foldl_nil]
    have hdone : done = items := by simpa using hsplit.symm
    subst hdone
    exact ⟨hcount, htop, hedge, hatt⟩
  | cons i todo ih =>
    intro done f hsplit hcount htop hedge hatt
    simp only [List.map_cons, List.foldl_cons]
    have himem : i ∈ items := by
      rw [hsplit]; exact List.mem_append.2 (Or.inr (List.mem_cons_self _ _))
    have hmain :
        (∀ t, countName t (list_sidebar.step f (i.title, i.parent_page)) =
          countName t (initForest items)) ∧
        (∀ it ∈ items, rootOrOrphan items it →
          it.title ∈ (list_sidebar.step f (i.title, i.parent_page)).map Node.name) ∧
        (∀ a b, Adj a b (list_sidebar.step f (i.title, i.parent_page)) →
          ∃ it ∈ done ++ [i], it.title = b ∧ it.parent_page = a ∧ a ≠ "") ∧
        (∀ it ∈ done ++ [i], it.parent_page ≠ "" →
          (∃ j ∈ items, j.title = it.parent_page) →
          Adj it.parent_page it.title
            (list_sidebar.step f (i.title, i.parent_page))) := by
      by_cases hp : i.parent_page = ""
      · have hstep : list_sidebar.step f (i.title, i.parent_page) = f := by
          simp [list_sidebar.step, hp]
        rw [hstep]
        refine ⟨hcount, htop, ?_, ?_⟩
        · intro a b hadj
          obtain ⟨it, hit, h3⟩ := hedge a b hadj
          exact ⟨it, List.mem_append.2 (Or.inl hit), h3⟩
        · intro it hit hitp hjex
          rcases List.mem_append.1 hit with hdone | hlast
          · exact hatt it hdone hitp hjex
          · have heq : it = i := by simpa using hlast
            subst heq
            exact absurd hp hitp
      · cases hfind : findNode i.parent_page f with
        | none =>
          have hstep : list_sidebar.step f (i.title, i.parent_page) = f := by
            simp [list_sidebar.step, hp, hfind]
          have hnotitle : ¬ ∃ j ∈ items, j.title = i.parent_page := by
            rintro ⟨j, hj, hjt⟩
            have h1 : 0 < countName i.parent_page (initForest items) := by
              rw [initForest_count]
              have := filter_title_pos hj
              rw [hjt] at this
              exact this
            rw [← hcount] at h1
            have h2 := (findNode_isSome_iff i.parent_page f).2 h1
            rw [hfind] at h2
            simp at h2
          rw [hstep]
          refine ⟨hcount, htop, ?_, ?_⟩
          · intro a b hadj
            obtain ⟨it, hit, h3⟩ := hedge a b hadj
            exact ⟨it, List.mem_append.2 (Or.inl hit), h3⟩
          · intro it hit hitp hjex
            rcases List.mem_append.1 hit with hdone | hlast
            · exact hatt it hdone hitp hjex
            · have heq : it = i := by simpa using hlast
              subst heq
              exact absurd hjex hnotitle
        | some nd0 =>
          have hxpos : 0 < countName i.title f := by
            rw [hcount, initForest_count]
            exact filter_title_pos himem
          obtain ⟨⟨nd, f2⟩, hext⟩ :=
            Option.isSome_iff_exists.1 (extract_isSome i.title f hxpos)
          have hndname : nd.name = i.title := extract_name i.title f nd f2 hext
          have hppos : 0 < countName i.parent_page f :=
            (findNode_isSome_iff i.parent_page f).1 (by rw [hfind]; rfl)
          have hptitle : ∃ j ∈ items, j.title = i.parent_page := by
            refine init_count_title ?_
            rw [← hcount]
            exact hppos
          have hpnd : countName i.parent_page [nd] = 0 := by
            by_contra hpos0
            have hpos1 : 0 < countName i.parent_page [nd] :=
              Nat.pos_of_ne_zero hpos0
            have hR : ∀ a b, Adj a b [nd] → parentRel items b a := by
              intro a b hadj
              have hadjf : Adj a b f := extract_adj_nd i.title f nd f2 hext a b hadj
              obtain ⟨it, hit, htit, hpar, hane⟩ := hedge a b hadjf
              refine ⟨hane, it, ?_, htit, hpar⟩
              rw [hsplit]
              exact List.mem_append.2 (Or.inl hit)
            have hocc : OccursIn nd [nd] :=
              occ_top [nd] nd (List.mem_cons_self nd [])
            have hedgeip : parentRel items i.title i.parent_page :=
              ⟨hp, i, himem, rfl, rfl⟩
            rcases occ_chain [nd] (parentRel items) hR nd hocc i.parent_page hpos1 with
              heq | hchain
            · have hpt : i.title = i.parent_page := by rw [heq, hndname]
              have hcyc :
                  Relation.TransGen (parentRel items) i.parent_page i.parent_page :=
                Relation.TransGen.single (hpt ▸ hedgeip)
              exact acyclic_no_cycle hacy hnd i.parent_page hcyc
            · rw [hndname] at hchain
              have hcyc :
                  Relation.TransGen (parentRel items) i.parent_page i.parent_page :=
                Relation.TransGen.trans hchain (Relation.TransGen.single hedgeip)
              exact acyclic_no_cycle hacy hnd i.parent_page hcyc
          have hp2 : 0 < countName i.parent_page f2 := by
            have := extract_count i.title f nd f2 hext i.parent_page
            omega
          obtain ⟨f3, hatt3⟩ :=
            Option.isSome_iff_exists.1 (attach_isSome i.parent_page nd f2 hp2)
          have hstep : list_sidebar.step f (i.title, i.parent_page) = f3 := by
            simp [list_sidebar.step, hp, hfind, hext, hatt3]
          rw [hstep]
          refine ⟨?_, ?_, ?_, ?_⟩
          · intro t
            have h1 := attach_count i.parent_page nd f2 f3 hatt3 t
            have h2 := extract_count i.title f nd f2 hext t
            have h3 := hcount t
            omega
          · intro it hit hroot
            have h1 := htop it hit hroot
            have hne : it.title ≠ i.title := by
              intro hcon
              have heq : it = i := title_inj hnd it hit i himem hcon
              subst heq
              rcases hroot with hroot | hroot
              · exact hp hroot
              · obtain ⟨j, hj, hjt⟩ := hptitle
                exact hroot j hj hjt
            have h2 := extract_top_keep i.title f nd f2 hext it.title hne h1
            rw [attach_topnames i.parent_page nd f2 f3 hatt3]
            exact h2
          · intro a b hadj
            rcases attach_adj_cases i.parent_page nd f2 f3 hatt3 a b hadj with
              h1 | h1 | h1
            · obtain ⟨it, hit, h3⟩ :=
                hedge a b (extract_adj_back i.title f nd f2 hext a b h1)
              exact ⟨it, List.mem_append.2 (Or.inl hit), h3⟩
            · obtain ⟨it, hit, h3⟩ :=
                hedge a b (extract_adj_nd i.title f nd f2 hext a b h1)
              exact ⟨it, List.mem_append.2 (Or.inl hit), h3⟩
            · refine ⟨i, List.mem_append.2 (Or.inr (List.mem_cons_self _ _)),
                ?_, h1.1.symm, h1.1 ▸ hp⟩
              rw [h1.2, hndname]
          · intro it hit hitp hjex
            rcases List.mem_append.1 hit with hdone | hlast
            · have hprev := hatt it hdone hitp hjex
              have hbne : it.title ≠ i.title := done_title_ne hnd hsplit it hdone
              rcases extract_adj_pres i.title f nd f2 hext it.parent_page it.title
                hbne hprev with h1 | h1
              · exact attach_adj_mono i.parent_page nd f2 f3 hatt3 _ _ h1
              · exact attach_adj_child i.parent_page nd f2 f3 hatt3 _ _ h1
            · have heq : it = i := by simpa using hlast
              have h1 := attach_adj_new i.parent_page nd f2 f3 hatt3
              rw [hndname] at h1
              rw [heq]
              exact h1
    exact ih (done ++ [i]) (list_sidebar.step f (i.title, i.parent_page))
      (by rw [hsplit, List.append_assoc]; rfl)
      hmain.1 hmain.2.1 hmain.2.2.1 hmain.2.2.2

/-! ## Claim theorems: the build phase -/

/-- C1: for a sequence with unique titles, well-formed parent references
(each `parent_page` empty or equal to some other item's title) and no
reference cycles, the build phase of `make_sidebar_menu` places every
item's container exactly once in the menu forest, keeps every root at
the top level of the section, and puts every item with a truthy
`parent_page` directly inside the nested-child container of the item
carrying that title (so a child `B` of a root `A` is reached via the
root section, then `A`'s nested-child container). -/
theorem C1_build_nests_each_item_once (items : List PageItem)
    (hnd : (items.map PageItem.title).Nodup)
    (hwf : ∀ it ∈ items, it.parent_page = "" ∨
      ∃ it2 ∈ items, it2.title = it.parent_page ∧ it2.title ≠ it.title)
    (hacy : acyclicB items = true) :
    ∀ it ∈ items,
      countName it.title (list_sidebar.buildForest items) = 1 ∧
      (it.parent_page = "" →
        it.title ∈ (list_sidebar.buildForest items).map Node.name) ∧
      (it.parent_page ≠ "" →
        Adj it.parent_page it.title (list_sidebar.buildForest items)) := by
  have hinv := build_invariant items hnd hacy items [] (initForest items) rfl
    (fun t => rfl)
    (fun it hit _ => by
      rw [initForest_topnames]
      exact List.mem_map.2 ⟨it, hit, rfl⟩)
    (fun a b hadj => absurd hadj (initForest_no_adj a b items))
    (fun it hit => absurd hit (List.not_mem_nil it))
  rw [show ((items.map fun it => (it.title, it.parent_page)).foldl
      list_sidebar.step (initForest items)) = list_sidebar.buildForest items from rfl]
    at hinv
  obtain ⟨hcount, htop, -, hatt⟩ := hinv
  intro it hit
  refine ⟨?_, ?_, ?_⟩
  · rw [hcount, initForest_count]
    have h1 := filter_title_pos hit
    have h2 := filter_title_le_one hnd it.title
    omega
  · intro hroot
    exact htop it hit (Or.inl hroot)
  · intro hp
    rcases hwf it hit with h | ⟨it2, hit2, htit2, -⟩
    · exact absurd h hp
    · exact hatt it hit hp ⟨it2, hit2, htit2⟩

/-- Witness for C1 at the two-item input `A` (root), `B` (child of `A`). -/
theorem C1_build_nests_each_item_once_witness :
    (([pageA, pageB].map PageItem.title).Nodup) ∧
    (∀ it ∈ [pageA, pageB], it.parent_page = "" ∨
      ∃ it2 ∈ [pageA, pageB], it2.title = it.parent_page ∧ it2.title ≠ it.title) ∧
    acyclicB [pageA, pageB] = true ∧
    (∀ it ∈ [pageA, pageB],
      countName it.title (list_sidebar.buildForest [pageA, pageB]) = 1 ∧
      (it.parent_page = "" →
        it.title ∈ (list_sidebar.buildForest [pageA, pageB]).map Node.name) ∧
      (it.parent_page ≠ "" →
        Adj it.parent_page it.title (list_sidebar.buildForest [pageA, pageB]))) :=
  ⟨by decide, by decide, by decide,
    C1_build_nests_each_item_once [pageA, pageB] (by decide) (by decide) (by decide)⟩

/-- C5: an item whose `parent_page` is truthy but matches no other
item's title stays a direct child of the top-level section (present at
the top level, and its container occurs exactly once, so it was neither
removed nor re-parented); the orphan branch of the pass runs no failing
operation (`appendTo`/`addClass` on an empty selection are no-ops). -/
theorem C5_orphan_stays_top_level (items : List PageItem) (it : PageItem)
    (hnd : (items.map PageItem.title).Nodup)
    (hacy : acyclicB items = true)
    (hmem : it ∈ items) (hp : it.parent_page ≠ "")
    (horph : ∀ it2 ∈ items, it2.title ≠ it.parent_page) :
    it.title ∈ (list_sidebar.buildForest items).map Node.name ∧
    countName it.title (list_sidebar.buildForest items) = 1 := by
  have hinv := build_invariant items hnd hacy items [] (initForest items) rfl
    (fun t => rfl)
    (fun it2 hit2 _ => by
      rw [initForest_topnames]
      exact List.mem_map.2 ⟨it2, hit2, rfl⟩)
    (fun a b hadj => absurd hadj (initForest_no_adj a b items))
    (fun it2 hit2 => absurd hit2 (List.not_mem_nil it2))
  rw [show ((items.map fun it => (it.title, it.parent_page)).foldl
      list_sidebar.step (initForest items)) = list_sidebar.buildForest items from rfl]
    at hinv
  obtain ⟨hcount, htop, -, -⟩ := hinv
  refine ⟨htop it hmem (Or.inr horph), ?_⟩
  rw [hcount, initForest_count]
  have h1 := filter_title_pos hmem
  have h2 := filter_title_le_one hnd it.title
  omega

/-- Witness for C5 at the input `A` (root), `B` (child of `A`),
`O` (orphan pointing at the missing title `Zed`). -/
theorem C5_orphan_stays_top_level_witness :
    (([pageA, pageB, pageO].map PageItem.title).Nodup) ∧
    acyclicB [pageA, pageB, pageO] = true ∧
    pageO ∈ [pageA, pageB, pageO] ∧
    pageO.parent_page ≠ "" ∧
    (∀ it2 ∈ [pageA, pageB, pageO], it2.title ≠ pageO.parent_page) ∧
    (pageO.title ∈ (list_sidebar.buildForest [pageA, pageB, pageO]).map Node.name ∧
      countName pageO.title (list_sidebar.buildForest [pageA, pageB, pageO]) = 1) :=
  ⟨by decide, by decide, by decide, by decide, by decide,
    C5_orphan_stays_top_level [pageA, pageB, pageO] pageO
      (by decide) (by decide) (by decide) (by decide) (by decide)⟩

/-- C2 (code evaluated at the failing input): building the menu from
`A` (root, with child `B`) leaves `A`'s nested-child container with the
`hidden` class.  The build phase takes no account of the persisted
expansion state at all — `localStorage` is read only inside the click
handler — so this holds regardless of the persisted array, in
particular when it contains `"A"`. -/
theorem C2_initial_render_is_hidden :
    hiddenOf "A" (list_sidebar.buildForest [pageA, pageB]) = some true := by
  simp [list_sidebar.buildForest, list_sidebar.step, initForest, initNode,
    pageA, pageB, findNode, extractNode, attachTo, hiddenOf]

/-! ## Facts about the click handler's DOM effect -/

theorem hrefOf_flipAll (t : String) :
    ∀ g, hrefOf t (flipAllForest g) = hrefOf t g := by
  intro g
  induction g using forest_ind with
  | h0 => simp [flipAllForest]
  | h1 n p d hd cs rest ihc ihr =>
    simp only [flipAllForest, hrefOf]
    rw [ihc, ihr]

theorem hiddenOf_flipAll (t : String) :
    ∀ g, hiddenOf t (flipAllForest g) = (hiddenOf t g).map (fun b => !b) := by
  intro g
  induction g using forest_ind with
  | h0 => simp [flipAllForest, hiddenOf]
  | h1 n p d hd cs rest ihc ihr =>
    simp only [flipAllForest, hiddenOf]
    by_cases h : n = t
    · simp [h]
    · simp only [if_neg h]
      rw [ihc, ihr]
      cases hiddenOf t cs <;> simp

theorem countName_flipAll (t : String) :
    ∀ g, countName t (flipAllForest g) = countName t g := by
  intro g
  induction g using forest_ind with
  | h0 => simp [flipAllForest]
  | h1 n p d hd cs rest ihc ihr =>
    simp only [flipAllForest, countName]
    rw [ihc, ihr]

theorem countName_setHref (t x v : String) :
    ∀ g, countName t (setHref x v g) = countName t g := by
  intro g
  induction g using forest_ind with
  | h0 => simp [setHref]
  | h1 n p d hd cs rest ihc ihr =>
    simp only [setHref, countName]
    rw [ihc, ihr]

theorem hiddenOf_setHref (t x v : String) :
    ∀ g, hiddenOf t (setHref x v g) = hiddenOf t g := by
  intro g
  induction g using forest_ind with
  | h0 => simp [setHref]
  | h1 n p d hd cs rest ihc ihr =>
    simp only [setHref, hiddenOf]
    rw [ihc, ihr]

theorem count0_hrefOf (t : String) :
    ∀ g, countName t g = 0 → hrefOf t g = none := by
  intro g
  induction g using forest_ind with
  | h0 => simp [hrefOf]
  | h1 n p d hd cs rest ihc ihr =>
    intro h0
    simp only [countName] at h0
    by_cases h : n = t
    · simp [h] at h0
    · simp only [hrefOf, if_neg h]
      rw [ihc (by omega), ihr (by omega)]

theorem count0_hiddenOf (t : String) :
    ∀ g, countName t g = 0 → hiddenOf t g = none := by
  intro g
  induction g using forest_ind with
  | h0 => simp [hiddenOf]
  | h1 n p d hd cs rest ihc ihr =>
    intro h0
    simp only [countName] at h0
    by_cases h : n = t
    · simp [h] at h0
    · simp only [hiddenOf, if_neg h]
      rw [ihc (by omega), ihr (by omega)]

theorem hrefOf_setHref_self (x v : String) :
    ∀ g, 0 < countName x g → hrefOf x (setHref x v g) = some v := by
  intro g
  induction g using forest_ind with
  | h0 => simp [countName]
  | h1 n p d hd cs rest ihc ihr =>
    intro hpos
    simp only [countName] at hpos
    simp only [setHref, hrefOf]
    by_cases h : n = x
    · simp [h]
    · simp only [if_neg h]
      by_cases hc : 0 < countName x cs
      · rw [ihc hc]
      · have h0 : countName x cs = 0 := by omega
        have h1 : hrefOf x (setHref x v cs) = none := by
          apply count0_hrefOf
          rw [countName_setHref]
          exact h0
        rw [h1]
        refine ihr ?_
        simp [h] at hpos
        omega

theorem hrefOf_clickEffect (t x : String) :
    ∀ f, hrefOf t (clickEffect x f) = hrefOf t f := by
  intro f
  induction f with
  | nil => simp [clickEffect]
  | cons nd rest ih =>
    cases nd with
    | mk n p d hd cs =>
      simp only [clickEffect, List.map_cons] at *
      by_cases h : nodeContains x (Node.mk n p d hd cs)
      · simp only [if_pos h, hrefOf]
        rw [hrefOf_flipAll, ih]
      · simp only [if_neg h, hrefOf]
        rw [ih]

theorem countName_clickEffect (t x : String) :
    ∀ f, countName t (clickEffect x f) = countName t f := by
  intro f
  induction f with
  | nil => simp [clickEffect]
  | cons nd rest ih =>
    cases nd with
    | mk n p d hd cs =>
      simp only [clickEffect, List.map_cons] at *
      by_cases h : nodeContains x (Node.mk n p d hd cs)
      · simp only [if_pos h, countName]
        rw [countName_flipAll, ih]
      · simp only [if_neg h, countName]
        rw [ih]

theorem sameTopTree_setHref (x t y v : String) :
    ∀ f, sameTopTree x t (setHref y v f) = sameTopTree x t f := by
  intro f
  induction f with
  | nil => simp [setHref, sameTopTree]
  | cons nd rest ih =>
    cases nd with
    | mk n p d hd cs =>
      simp only [setHref, sameTopTree, List.any_cons] at *
      rw [ih]
      have hcont : ∀ s : String,
          nodeContains s (Node.mk n p (if n = y then some v else d) hd
            (setHref y v cs)) = nodeContains s (Node.mk n p d hd cs) := by
        intro s
        simp only [nodeContains, countName]
        rw [show countName s (setHref y v cs) = countName s cs from
          countName_setHref s y v cs]
      rw [hcont x, hcont t]

theorem hiddenOf_isSome_iff (t : String) :
    ∀ f, (hiddenOf t f).isSome ↔ 0 < countName t f := by
  intro f
  induction f using forest_ind with
  | h0 => simp [hiddenOf, countName]
  | h1 n p d hd cs rest ihc ihr =>
    by_cases h : n = t
    · simp [hiddenOf, countName, h]
    · simp only [hiddenOf, countName, if_neg h]
      cases hc : hiddenOf t cs with
      | some b => simp [hc] at ihc ⊢; omega
      | none =>
        have h0 : countName t cs = 0 := by
          simp [hc] at ihc; omega
        simp [h0, ihr]

theorem count0_sameTopTree (x t : String) :
    ∀ g, countName t g = 0 → sameTopTree x t g = false := by
  intro g
  induction g with
  | nil => simp [sameTopTree]
  | cons nd rest ih =>
    intro h0
    rw [countName_cons] at h0
    have hhd : nodeContains t nd = false := by
      simp only [nodeContains]
      simp only [decide_eq_false_iff_not]
      omega
    simp only [sameTopTree, List.any_cons, hhd, Bool.and_false, Bool.false_or]
    exact ih (by omega)

theorem hiddenOf_clickEffect (t x : String) :
    ∀ f, countName t f ≤ 1 →
      hiddenOf t (clickEffect x f) =
        if sameTopTree x t f then (hiddenOf t f).map (fun b => !b)
        else hiddenOf t f := by
  intro f
  induction f with
  | nil => simp [clickEffect, sameTopTree, hiddenOf]
  | cons nd rest ih =>
    intro hle
    cases nd with
    | mk n p d hd cs =>
      rw [countName_cons] at hle
      by_cases hA : 0 < countName t [Node.mk n p d hd cs]
      · -- `t` lives in the head subtree; the tail has no `t`
        have hrest0 : countName t rest = 0 := by omega
        have hstt : sameTopTree x t rest = false := count0_sameTopTree x t rest hrest0
        have hcontK : nodeContains t (Node.mk n p d hd cs) = true := by
          simp only [nodeContains]
          simpa using hA
        by_cases hx : nodeContains x (Node.mk n p d hd cs)
        · -- head flipped
          have hstf : sameTopTree x t (Node.mk n p d hd cs :: rest) = true := by
            simp [sameTopTree, hx, hcontK]
          rw [hstf]
          simp only [clickEffect, List.map_cons, if_pos hx]
          by_cases h : n = t
          · simp [hiddenOf, h]
          · have hcs : 0 < countName t cs := by
              simp only [countName, if_neg h] at hA
              omega
            obtain ⟨b, hb⟩ := Option.isSome_iff_exists.1
              ((hiddenOf_isSome_iff t cs).2 hcs)
            have hbflip : hiddenOf t (flipAllForest cs) = some (!b) := by
              rw [hiddenOf_flipAll, hb]
              rfl
            simp only [hiddenOf, if_neg h, hb, hbflip]
            rfl
        · -- head untouched
          have hstf : sameTopTree x t (Node.mk n p d hd cs :: rest) = false := by
            simp only [sameTopTree, List.any_cons]
            simp only [sameTopTree] at hstt
            rw [hstt]
            simp [hx]
          rw [hstf]
          simp only [clickEffect, List.map_cons, if_neg hx]
          by_cases h : n = t
          · simp [hiddenOf, h]
          · have hcs : 0 < countName t cs := by
              simp only [countName, if_neg h] at hA
              omega
            obtain ⟨b, hb⟩ := Option.isSome_iff_exists.1
              ((hiddenOf_isSome_iff t cs).2 hcs)
            simp only [hiddenOf, if_neg h, hb]
            simp
      · -- `t` is not in the head subtree
        have hK0 : countName t [Node.mk n p d hd cs] = 0 := by omega
        have hnt : n ≠ t := by
          intro h
          simp [countName, h] at hK0
        have hcs0 : countName t cs = 0 := by
          simp only [countName, if_neg hnt] at hK0
          omega
        have hcsnone : hiddenOf t cs = none := count0_hiddenOf t cs hcs0
        have hflipnone : hiddenOf t (flipAllForest cs) = none := by
          apply count0_hiddenOf
          rw [countName_flipAll]
          exact hcs0
        have hcontK : nodeContains t (Node.mk n p d hd cs) = false := by
          simp only [nodeContains, decide_eq_false_iff_not]
          omega
        have hstf : sameTopTree x t (Node.mk n p d hd cs :: rest) =
            sameTopTree x t rest := by
          simp [sameTopTree, List.any_cons, hcontK]
        rw [hstf]
        have hih := ih (by omega)
        by_cases hx : nodeContains x (Node.mk n p d hd cs)
        · simp only [clickEffect, List.map_cons, if_pos hx] at *
          simp only [hiddenOf, if_neg hnt, hcsnone, hflipnone]
          exact hih
        · simp only [clickEffect, List.map_cons, if_neg hx] at *
          simp only [hiddenOf, if_neg hnt, hcsnone]
          exact hih

/-! ## Facts about the persisted-array encoding -/

theorem parseLoop_str :
    ∀ (cs : List Char), '"' ∉ cs → ∀ (acc : List Char) (out : List String)
      (tail : List Char),
      parseLoop (cs ++ '"' :: tail) .str acc out =
        parseLoop tail .sep [] (String.mk (acc.reverse ++ cs) :: out) := by
  intro cs
  induction cs with
  | nil =>
    intro _ acc out tail
    simp [parseLoop]
  | cons c cs' ih =>
    intro hni acc out tail
    have hc : c ≠ '"' := fun h => hni (h ▸ List.mem_cons_self c cs')
    have hni' : '"' ∉ cs' := fun h => hni (List.mem_cons_of_mem c h)
    simp only [List.cons_append, parseLoop, if_neg hc]
    rw [ih hni' (c :: acc) out tail]
    simp

theorem encodeItems_cons (s : String) (rest : List String) :
    encodeItems (s :: rest) =
      '"' :: s.data ++ '"' ::
        (match rest with
         | [] => ([] : List Char)
         | _ :: _ => ',' :: encodeItems rest) := by
  cases rest with
  | nil => simp [encodeItems]
  | cons s2 rest' => simp [encodeItems]

theorem parseLoop_comma (X : List Char) (acc : List Char) (out : List String) :
    parseLoop (',' :: ('"' :: X)) .sep acc out = parseLoop X .str [] out := by
  simp [parseLoop]

theorem parseLoop_end (acc : List Char) (out : List String) :
    parseLoop [']'] .sep acc out = some out.reverse := by
  simp [parseLoop]

theorem string_mk_data (s : String) : String.mk s.data = s := rfl

theorem encodeItems_head (s : String) (rest : List String) :
    encodeItems (s :: rest) = '"' :: (encodeItems (s :: rest)).drop 1 := by
  cases rest with
  | nil => simp [encodeItems]
  | cons s2 rest2 => simp [encodeItems]

theorem encodeItems_drop_nil (s : String) :
    (encodeItems [s]).drop 1 = s.data ++ ['"'] := by
  simp [encodeItems]

theorem encodeItems_drop_cons (s s2 : String) (rest : List String) :
    (encodeItems (s :: s2 :: rest)).drop 1 =
      s.data ++ '"' :: ',' :: encodeItems (s2 :: rest) := by
  simp [encodeItems]

theorem parseLoop_enc :
    ∀ (l : List String), (∀ q ∈ l, '"' ∉ q.data) →
      ∀ (s : String), '"' ∉ s.data → ∀ (out : List String),
      parseLoop ((encodeItems (s :: l)).drop 1 ++ [']']) .str [] out =
        some (out.reverse ++ s :: l) := by
  intro l
  induction l with
  | nil =>
    intro _ s hs out
    rw [encodeItems_drop_nil]
    rw [show (s.data ++ ['"'] : List Char) ++ [']'] = s.data ++ '"' :: [']'] by simp]
    rw [parseLoop_str s.data hs [] out [']']]
    rw [parseLoop_end]
    simp [string_mk_data]
  | cons s2 l' ih =>
    intro hgood s hs out
    have hs2 : '"' ∉ s2.data := hgood s2 (List.mem_cons_self s2 l')
    have hgood' : ∀ q ∈ l', '"' ∉ q.data :=
      fun q hq => hgood q (List.mem_cons_of_mem s2 hq)
    rw [encodeItems_drop_cons]
    rw [show (s.data ++ '"' :: ',' :: encodeItems (s2 :: l') : List Char) ++ [']'] =
      s.data ++ '"' :: (',' :: (encodeItems (s2 :: l') ++ [']'])) by simp]
    rw [parseLoop_str s.data hs [] out (',' :: (encodeItems (s2 :: l') ++ [']']))]
    rw [show (',' :: (encodeItems (s2 :: l') ++ [']']) : List Char) =
      ',' :: ('"' :: ((encodeItems (s2 :: l')).drop 1 ++ [']'])) from by
        conv_lhs => rw [encodeItems_head s2 l']
        simp]
    rw [parseLoop_comma]
    rw [ih hgood' s2 hs2 (String.mk (List.reverse [] ++ s.data) :: out)]
    simp [string_mk_data]

theorem decodeArr_quote (Y : List Char) :
    decodeArr (String.mk ('[' :: '"' :: Y)) = parseLoop Y .str [] [] := by
  simp [decodeArr]

theorem decode_encode (l : List String) (hgood : ∀ s ∈ l, '"' ∉ s.data) :
    decodeArr (encodeArr l) = some l := by
  cases l with
  | nil => simp [decodeArr, encodeArr, encodeItems]
  | cons s rest =>
    have hs : '"' ∉ s.data := hgood s (List.mem_cons_self s rest)
    have hrest : ∀ q ∈ rest, '"' ∉ q.data :=
      fun q hq => hgood q (List.mem_cons_of_mem s hq)
    rw [show encodeArr (s :: rest) =
        String.mk ('[' :: '"' :: ((encodeItems (s :: rest)).drop 1 ++ [']'])) from by
      rw [encodeArr]
      conv_lhs => rw [encodeItems_head s rest]
      simp]
    rw [decodeArr_quote]
    rw [parseLoop_enc rest hrest s hs []]
    simp

theorem parseLoop_good :
    ∀ (n : Nat) (cs : List Char) (st : PState) (acc : List Char)
      (out l : List String),
      cs.length ≤ n →
      (∀ c ∈ acc, c ≠ '"') →
      (∀ s ∈ out, '"' ∉ s.data) →
      parseLoop cs st acc out = some l →
      ∀ s ∈ l, '"' ∉ s.data := by
  intro n
  induction n with
  | zero =>
    intro cs st acc out l hlen _ _ hparse
    have hnil : cs = [] := List.eq_nil_of_length_eq_zero (Nat.le_zero.1 hlen)
    subst hnil
    simp [parseLoop] at hparse
  | succ n ih =>
    intro cs st acc out l hlen hacc hout hparse
    cases cs with
    | nil => simp [parseLoop] at hparse
    | cons c rest =>
      simp only [List.length_cons, Nat.succ_le_succ_iff] at hlen
      cases st with
      | start =>
        by_cases hc : c = '"'
        · simp only [parseLoop, if_pos hc] at hparse
          exact ih rest .str [] out l hlen (by simp) hout hparse
        · simp only [parseLoop, if_neg hc] at hparse
          simp at hparse
      | str =>
        by_cases hc : c = '"'
        · simp only [parseLoop, if_pos hc] at hparse
          refine ih rest .sep [] (String.mk acc.reverse :: out) l hlen
            (by simp) ?_ hparse
          intro q hq
          rcases List.mem_cons.1 hq with h | h
          · subst h
            intro hmem
            exact hacc '"' (List.mem_reverse.1 hmem) rfl
          · exact hout q h
        · simp only [parseLoop, if_neg hc] at hparse
          refine ih rest .str (c :: acc) out l hlen ?_ hout hparse
          intro q hq
          rcases List.mem_cons.1 hq with h | h
          · subst h; exact hc
          · exact hacc q h
      | sep =>
        by_cases hc1 : c = ']'
        · simp only [parseLoop, if_pos hc1] at hparse
          by_cases hemp : rest.isEmpty
          · simp only [hemp, if_true] at hparse
            have hrev : out.reverse = l := by simpa using hparse
            subst hrev
            intro s hs
            exact hout s (List.mem_reverse.1 hs)
          · simp [hemp] at hparse
        · by_cases hc2 : c = ','
          · simp only [parseLoop, if_neg hc1, if_pos hc2] at hparse
            exact ih rest .start [] out l hlen (by simp) hout hparse
          · simp only [parseLoop, if_neg hc1, if_neg hc2] at hparse
            simp at hparse

/-- Every string produced by a successful `decodeArr` is free of `"`,
so a decoded persisted array can be re-encoded faithfully. -/
theorem decode_good {str : String} {l : List String}
    (h : decodeArr str = some l) : ∀ s ∈ l, '"' ∉ s.data := by
  unfold decodeArr at h
  split at h
  · have hnil : l = [] := by simpa using h.symm
    subst hnil
    simp
  · exact parseLoop_good _ _ .str [] [] l le_rfl (by simp) (by simp) h
  · simp at h

/-! ## The four branches of the click handler -/

theorem toggle_expand_write (x : String) (f : List Node) (store : Store)
    (arr : List String)
    (hparse : decodeArr ((store lsKey).getD "[]") = some arr)
    (hdir : hrefOf x f = some "#es-line-down")
    (hmem : x ∉ arr) :
    list_sidebar.toggle_click x f store =
      some ⟨clickEffect x (setHref x "#es-line-up" f),
        updStore store lsKey (encodeArr (arr ++ [x])),
        [(lsKey, encodeArr (arr ++ [x]))]⟩ := by
  simp [list_sidebar.toggle_click, hparse, hdir, hmem]

theorem toggle_expand_noop (x : String) (f : List Node) (store : Store)
    (arr : List String)
    (hparse : decodeArr ((store lsKey).getD "[]") = some arr)
    (hdir : hrefOf x f = some "#es-line-down")
    (hmem : x ∈ arr) :
    list_sidebar.toggle_click x f store =
      some ⟨clickEffect x (setHref x "#es-line-up" f), store, []⟩ := by
  simp [list_sidebar.toggle_click, hparse, hdir, hmem]

theorem toggle_collapse_write (x : String) (f : List Node) (store : Store)
    (arr : List String)
    (hparse : decodeArr ((store lsKey).getD "[]") = some arr)
    (hdir : hrefOf x f ≠ some "#es-line-down")
    (hmem : x ∈ arr) :
    list_sidebar.toggle_click x f store =
      some ⟨clickEffect x (setHref x "#es-line-down" f),
        updStore store lsKey (encodeArr (arr.erase x)),
        [(lsKey, encodeArr (arr.erase x))]⟩ := by
  simp [list_sidebar.toggle_click, hparse, hdir, hmem]

theorem toggle_collapse_noop (x : String) (f : List Node) (store : Store)
    (arr : List String)
    (hparse : decodeArr ((store lsKey).getD "[]") = some arr)
    (hdir : hrefOf x f ≠ some "#es-line-down")
    (hmem : x ∉ arr) :
    list_sidebar.toggle_click x f store =
      some ⟨clickEffect x (setHref x "#es-line-down" f), store, []⟩ := by
  simp [list_sidebar.toggle_click, hparse, hdir, hmem]

/-! ## Claim theorems: the click handler -/

/-- C4 counterexample: in the menu built from `A` (root) and `B` (child
of `A`), both nested containers start hidden, yet a single toggle click
on `A`'s drop icon leaves `B`'s nested-child container un-hidden as
well: `$parentContainer.find(".sidebar-child-item.nested-container")`
matches every descendant container, not only `A`'s own, so the claim
that exactly one container flips (descendants untouched) is false. -/
theorem C4_counterexample :
    hiddenOf "B" (list_sidebar.buildForest [pageA, pageB]) = some true ∧
    ((list_sidebar.toggle_click "A" (list_sidebar.buildForest [pageA, pageB])
        (fun _ => none)).map fun r => hiddenOf "B" r.forest) =
      some (some false) := by
  constructor
  · simp [list_sidebar.buildForest, list_sidebar.step, initForest, initNode,
      pageA, pageB, findNode, extractNode, attachTo, hiddenOf]
  · simp [list_sidebar.toggle_click, list_sidebar.buildForest, list_sidebar.step,
      initForest, initNode, pageA, pageB, findNode, extractNode, attachTo,
      hiddenOf, decodeArr, lsKey, hrefOf, setHref, clickEffect, nodeContains,
      countName, flipAllForest]

/-- C4 (amended): a toggle click on the drop icon of item `x` flips the
`hidden` class of every nested-child container lying inside the
top-level container whose subtree holds `x` (`x`'s own container, its
descendants, and — when `x` is nested — its ancestors and their
descendants), and leaves the containers of every other top-level subtree
unchanged; it flips `x`'s icon href, leaves every other storage key
unchanged, and adds `x` to the persisted array exactly when expanding
(removing it when collapsing), leaving all other entries in place. -/
theorem C4_amended_click_scope (x h : String) (f : List Node) (store : Store)
    (arr : List String)
    (hx : '"' ∉ x.data)
    (hparse : decodeArr ((store lsKey).getD "[]") = some arr)
    (hicon : hrefOf x f = some h)
    (hxcount : 0 < countName x f) :
    ∃ r, list_sidebar.toggle_click x f store = some r ∧
      (∀ t, countName t f ≤ 1 →
        hiddenOf t r.forest =
          if sameTopTree x t f then (hiddenOf t f).map (fun b => !b)
          else hiddenOf t f) ∧
      hrefOf x r.forest =
        some (if h = "#es-line-down" then "#es-line-up" else "#es-line-down") ∧
      (∀ k, k ≠ lsKey → r.store k = store k) ∧
      decodeArr ((r.store lsKey).getD "[]") =
        some (if h = "#es-line-down"
          then (if x ∈ arr then arr else arr ++ [x])
          else arr.erase x) := by
  have hgood : ∀ s ∈ arr, '"' ∉ s.data := decode_good hparse
  have hforest : ∀ icon t, countName t f ≤ 1 →
      hiddenOf t (clickEffect x (setHref x icon f)) =
        if sameTopTree x t f then (hiddenOf t f).map (fun b => !b)
        else hiddenOf t f := by
    intro icon t hle
    rw [hiddenOf_clickEffect t x (setHref x icon f)
      (by rw [countName_setHref]; exact hle)]
    rw [sameTopTree_setHref, hiddenOf_setHref]
  have hhref : ∀ icon, hrefOf x (clickEffect x (setHref x icon f)) = some icon := by
    intro icon
    rw [hrefOf_clickEffect, hrefOf_setHref_self x icon f hxcount]
  by_cases hdir : h = "#es-line-down"
  · subst hdir
    by_cases hmem : x ∈ arr
    · refine ⟨_, toggle_expand_noop x f store arr hparse hicon hmem, ?_, ?_, ?_, ?_⟩
      · intro t ht; exact hforest _ t ht
      · rw [hhref]; simp
      · intro k _; rfl
      · simp [hmem, hparse]
    · refine ⟨_, toggle_expand_write x f store arr hparse hicon hmem, ?_, ?_, ?_, ?_⟩
      · intro t ht; exact hforest _ t ht
      · rw [hhref]; simp
      · intro k hk; simp [updStore, hk]
      · simp only [updStore, if_true, reduceIte, Option.getD_some]
        rw [decode_encode]
        · simp [hmem]
        · intro s hs
          rcases List.mem_append.1 hs with hs | hs
          · exact hgood s hs
          · rw [List.mem_singleton.1 hs]; exact hx
  · have hdir2 : hrefOf x f ≠ some "#es-line-down" := by
      rw [hicon]
      intro hcon
      exact hdir (by simpa using hcon)
    by_cases hmem : x ∈ arr
    · refine ⟨_, toggle_collapse_write x f store arr hparse hdir2 hmem, ?_, ?_, ?_, ?_⟩
      · intro t ht; exact hforest _ t ht
      · rw [hhref]; simp [hdir]
      · intro k hk; simp [updStore, hk]
      · simp only [updStore, if_true, reduceIte, Option.getD_some]
        rw [decode_encode]
        · simp [hdir]
        · intro s hs
          exact hgood s (List.mem_of_mem_erase hs)
    · refine ⟨_, toggle_collapse_noop x f store arr hparse hdir2 hmem, ?_, ?_, ?_, ?_⟩
      · intro t ht; exact hforest _ t ht
      · rw [hhref]; simp [hdir]
      · intro k _; rfl
      · rw [hparse, List.erase_of_not_mem hmem]
        simp [hdir]

/-- Witness for C4 (amended) at a click on `A` in the two-item menu. -/
theorem C4_amended_click_scope_witness :
    ('"' ∉ ("A" : String).data) ∧
    decodeArr (((fun _ => none : Store) lsKey).getD "[]") = some [] ∧
    hrefOf "A" [Node.mk "A" "" (some "#es-line-down") true
      [Node.mk "B" "A" none true []]] = some "#es-line-down" ∧
    0 < countName "A" [Node.mk "A" "" (some "#es-line-down") true
      [Node.mk "B" "A" none true []]] ∧
    (∃ r, list_sidebar.toggle_click "A"
        [Node.mk "A" "" (some "#es-line-down") true [Node.mk "B" "A" none true []]]
        (fun _ => none) = some r ∧
      (∀ t, countName t [Node.mk "A" "" (some "#es-line-down") true
          [Node.mk "B" "A" none true []]] ≤ 1 →
        hiddenOf t r.forest =
          if sameTopTree "A" t [Node.mk "A" "" (some "#es-line-down") true
              [Node.mk "B" "A" none true []]] then
            (hiddenOf t [Node.mk "A" "" (some "#es-line-down") true
              [Node.mk "B" "A" none true []]]).map (fun b => !b)
          else hiddenOf t [Node.mk "A" "" (some "#es-line-down") true
            [Node.mk "B" "A" none true []]]) ∧
      hrefOf "A" r.forest =
        some (if ("#es-line-down" : String) = "#es-line-down" then "#es-line-up"
          else "#es-line-down") ∧
      (∀ k, k ≠ lsKey → r.store k = (fun _ => none : Store) k) ∧
      decodeArr ((r.store lsKey).getD "[]") =
        some (if ("#es-line-down" : String) = "#es-line-down"
          then (if "A" ∈ ([] : List String) then [] else [] ++ ["A"])
          else ([] : List String).erase "A")) :=
  ⟨by decide, by simp [decodeArr], by simp [hrefOf], by simp [countName],
    C4_amended_click_scope "A" "#es-line-down"
      [Node.mk "A" "" (some "#es-line-down") true [Node.mk "B" "A" none true []]]
      (fun _ => none) [] (by decide) (by simp [decodeArr]) (by simp [hrefOf])
      (by simp [countName])⟩

/-- C3 counterexample: starting from the persisted array `["A"]` with
`A`'s icon showing `#es-line-down` (exactly the state the initial render
produces after a reload, since the build ignores the persisted state),
two successive clicks on `A`'s drop icon leave the persisted array
empty, not `["A"]`: the first click finds `"A"` already present and
writes nothing, the second removes it. -/
theorem C3_counterexample :
    decodeArr (((fun k => if k = lsKey then some "[\"A\"]" else none : Store)
        lsKey).getD "[]") = some ["A"] ∧
    ((list_sidebar.toggle_click "A" (list_sidebar.buildForest [pageA, pageB])
        (fun k => if k = lsKey then some "[\"A\"]" else none)).bind fun r1 =>
      (list_sidebar.toggle_click "A" r1.forest r1.store).map fun r2 =>
        decodeArr ((r2.store lsKey).getD "[]")) = some (some []) := by
  constructor
  · simp [decodeArr, parseLoop]
  · simp [list_sidebar.toggle_click, list_sidebar.buildForest, list_sidebar.step,
      initForest, initNode, pageA, pageB, findNode, extractNode, attachTo,
      decodeArr, parseLoop, hrefOf, setHref, clickEffect, nodeContains,
      countName, flipAllForest, updStore, encodeArr, encodeItems]

/-- C3 (amended): provided the item's icon state agrees with the
persisted array — the icon shows `#es-line-down` (collapsed) exactly
when the title is absent from the array — two successive clicks on the
item's drop icon return the persisted expansion state to exactly the
set of titles it held before the first click (the array may be
reordered: a title removed from the middle is re-appended at the end).
Without that consistency premise the round trip fails, see the
counterexample. -/
theorem C3_amended_double_toggle (x h : String) (f : List Node)
    (store : Store) (arr : List String)
    (hx : '"' ∉ x.data)
    (hparse : decodeArr ((store lsKey).getD "[]") = some arr)
    (hicon : hrefOf x f = some h)
    (hxcount : 0 < countName x f)
    (hcons : h = "#es-line-down" ↔ x ∉ arr) :
    ∃ r1 r2, list_sidebar.toggle_click x f store = some r1 ∧
      list_sidebar.toggle_click x r1.forest r1.store = some r2 ∧
      ∃ arr2, decodeArr ((r2.store lsKey).getD "[]") = some arr2 ∧
        ∀ t, t ∈ arr2 ↔ t ∈ arr := by
  have hgood : ∀ s ∈ arr, '"' ∉ s.data := decode_good hparse
  have hhref : ∀ icon, hrefOf x (clickEffect x (setHref x icon f)) = some icon := by
    intro icon
    rw [hrefOf_clickEffect, hrefOf_setHref_self x icon f hxcount]
  have hcount2 : ∀ icon, 0 < countName x (clickEffect x (setHref x icon f)) := by
    intro icon
    rw [countName_clickEffect, countName_setHref]
    exact hxcount
  by_cases hdir : h = "#es-line-down"
  · -- first click expands and appends `x`, second collapses and removes it
    have hmem : x ∉ arr := hcons.1 hdir
    have hgood1 : ∀ s ∈ arr ++ [x], '"' ∉ s.data := by
      intro s hs
      rcases List.mem_append.1 hs with hs | hs
      · exact hgood s hs
      · rw [List.mem_singleton.1 hs]; exact hx
    refine ⟨_, _, toggle_expand_write x f store arr hparse (hdir ▸ hicon) hmem,
      toggle_collapse_write x _ _ (arr ++ [x])
        (by simp [updStore]; exact decode_encode _ hgood1)
        (by rw [hhref]; simp)
        (List.mem_append.2 (Or.inr (List.mem_singleton.2 rfl))), ?_⟩
    refine ⟨arr, ?_, fun t => Iff.rfl⟩
    simp only [updStore, if_true, reduceIte, Option.getD_some]
    rw [show (arr ++ [x]).erase x = arr by
      rw [List.erase_append_right _ hmem]
      simp]
    exact decode_encode arr hgood
  · -- first click collapses and removes `x`, second expands
    have hmem : x ∈ arr := by
      by_contra hcon
      exact hdir (hcons.2 hcon)
    have hdir2 : hrefOf x f ≠ some "#es-line-down" := by
      rw [hicon]
      intro hcon
      exact hdir (by simpa using hcon)
    have hgood1 : ∀ s ∈ arr.erase x, '"' ∉ s.data :=
      fun s hs => hgood s (List.mem_of_mem_erase hs)
    have hparse1 : decodeArr (((updStore store lsKey
        (encodeArr (arr.erase x))) lsKey).getD "[]") = some (arr.erase x) := by
      simp [updStore]
      exact decode_encode _ hgood1
    by_cases hmem2 : x ∈ arr.erase x
    · refine ⟨_, _, toggle_collapse_write x f store arr hparse hdir2 hmem,
        toggle_expand_noop x _ _ (arr.erase x) hparse1
          (by rw [hhref]) hmem2, ?_⟩
      refine ⟨arr.erase x, hparse1, fun t => ?_⟩
      by_cases ht : t = x
      · subst ht
        simp [hmem2, hmem]
      · rw [List.mem_erase_of_ne ht]
    · refine ⟨_, _, toggle_collapse_write x f store arr hparse hdir2 hmem,
        toggle_expand_write x _ _ (arr.erase x) hparse1
          (by rw [hhref]) hmem2, ?_⟩
      refine ⟨arr.erase x ++ [x], ?_, fun t => ?_⟩
      · simp only [updStore, if_true, reduceIte, Option.getD_some]
        refine decode_encode _ ?_
        intro s hs
        rcases List.mem_append.1 hs with hs | hs
        · exact hgood1 s hs
        · rw [List.mem_singleton.1 hs]; exact hx
      · by_cases ht : t = x
        · subst ht
          simp [hmem]
        · simp only [List.mem_append, List.mem_singleton, ht, or_false]
          rw [List.mem_erase_of_ne ht]

/-- Witness for C3 (amended): double toggle on `A` from a consistent
state (icon collapsed, title not persisted). -/
theorem C3_amended_double_toggle_witness :
    ('"' ∉ ("A" : String).data) ∧
    decodeArr (((fun _ => none : Store) lsKey).getD "[]") = some [] ∧
    hrefOf "A" [Node.mk "A" "" (some "#es-line-down") true
      [Node.mk "B" "A" none true []]] = some "#es-line-down" ∧
    0 < countName "A" [Node.mk "A" "" (some "#es-line-down") true
      [Node.mk "B" "A" none true []]] ∧
    (("#es-line-down" : String) = "#es-line-down" ↔ "A" ∉ ([] : List String)) ∧
    (∃ r1 r2, list_sidebar.toggle_click "A"
        [Node.mk "A" "" (some "#es-line-down") true [Node.mk "B" "A" none true []]]
        (fun _ => none) = some r1 ∧
      list_sidebar.toggle_click "A" r1.forest r1.store = some r2 ∧
      ∃ arr2, decodeArr ((r2.store lsKey).getD "[]") = some arr2 ∧
        ∀ t, t ∈ arr2 ↔ t ∈ ([] : List String)) :=
  ⟨by decide, by simp [decodeArr], by simp [hrefOf], by simp [countName],
    by decide,
    C3_amended_double_toggle "A" "#es-line-down"
      [Node.mk "A" "" (some "#es-line-down") true [Node.mk "B" "A" none true []]]
      (fun _ => none) [] (by decide) (by simp [decodeArr]) (by simp [hrefOf])
      (by simp [countName]) (by decide)⟩

/-- C9: a toggle click preserves freedom from duplicates in the
persisted array: the handler appends the title only when
`existingArray.includes(itemname)` is false, and otherwise removes the
first occurrence with `splice(indexOf, 1)`. -/
theorem C9_toggle_preserves_nodup (x : String) (f : List Node) (store : Store)
    (arr : List String)
    (hx : '"' ∉ x.data)
    (hparse : decodeArr ((store lsKey).getD "[]") = some arr)
    (hnd : arr.Nodup) :
    ∃ r, list_sidebar.toggle_click x f store = some r ∧
      ∃ arr2, decodeArr ((r.store lsKey).getD "[]") = some arr2 ∧
        arr2.Nodup := by
  have hgood : ∀ s ∈ arr, '"' ∉ s.data := decode_good hparse
  by_cases hdir : hrefOf x f = some "#es-line-down"
  · by_cases hmem : x ∈ arr
    · exact ⟨_, toggle_expand_noop x f store arr hparse hdir hmem,
        arr, hparse, hnd⟩
    · refine ⟨_, toggle_expand_write x f store arr hparse hdir hmem,
        arr ++ [x], ?_, ?_⟩
      · simp only [updStore, if_true, reduceIte, Option.getD_some]
        refine decode_encode _ ?_
        intro s hs
        rcases List.mem_append.1 hs with hs | hs
        · exact hgood s hs
        · rw [List.mem_singleton.1 hs]; exact hx
      · simp [List.nodup_append, hnd, hmem]
  · by_cases hmem : x ∈ arr
    · refine ⟨_, toggle_collapse_write x f store arr hparse hdir hmem,
        arr.erase x, ?_, hnd.erase x⟩
      simp only [updStore, if_true, reduceIte, Option.getD_some]
      exact decode_encode _ (fun s hs => hgood s (List.mem_of_mem_erase hs))
    · exact ⟨_, toggle_collapse_noop x f store arr hparse hdir hmem,
        arr, hparse, hnd⟩

/-- Witness for C9: a click on `A` with persisted array `["B"]`. -/
theorem C9_toggle_preserves_nodup_witness :
    ('"' ∉ ("A" : String).data) ∧
    decodeArr (((fun k => if k = lsKey then some "[\"B\"]" else none : Store)
      lsKey).getD "[]") = some ["B"] ∧
    (["B"] : List String).Nodup ∧
    (∃ r, list_sidebar.toggle_click "A"
        [Node.mk "A" "" (some "#es-line-down") true [Node.mk "B" "A" none true []]]
        (fun k => if k = lsKey then some "[\"B\"]" else none) = some r ∧
      ∃ arr2, decodeArr ((r.store lsKey).getD "[]") = some arr2 ∧
        arr2.Nodup) :=
  ⟨by decide, by simp [decodeArr, parseLoop], by decide,
    C9_toggle_preserves_nodup "A"
      [Node.mk "A" "" (some "#es-line-down") true [Node.mk "B" "A" none true []]]
      (fun k => if k = lsKey then some "[\"B\"]" else none) ["B"]
      (by decide) (by simp [decodeArr, parseLoop]) (by decide)⟩

/-- The two handlers are the same function (used to transfer per-handler
facts; the refinement claim states this as its own theorem). -/
theorem toggle_click_eq :
    form_sidebar.toggle_click = list_sidebar.toggle_click := rfl

theorem toggle_writes_props (x : String) (f : List Node) (store : Store)
    (r : ClickResult) (h : list_sidebar.toggle_click x f store = some r) :
    (∀ w ∈ r.writes, w.1 = lsKey ∧ ∃ l : List String, w.2 = encodeArr l) ∧
    (∀ k, k ≠ lsKey → r.store k = store k) := by
  cases hdec : decodeArr ((store lsKey).getD "[]") with
  | none => simp [list_sidebar.toggle_click, hdec] at h
  | some arr =>
    by_cases hdir : hrefOf x f = some "#es-line-down"
    · by_cases hmem : x ∈ arr
      · rw [toggle_expand_noop x f store arr hdec hdir hmem] at h
        obtain rfl : r = _ := (Option.some.inj h).symm
        exact ⟨by simp, fun k _ => rfl⟩
      · rw [toggle_expand_write x f store arr hdec hdir hmem] at h
        obtain rfl : r = _ := (Option.some.inj h).symm
        refine ⟨?_, fun k hk => by simp [updStore, hk]⟩
        intro w hw
        rw [List.mem_singleton.1 hw]
        exact ⟨rfl, arr ++ [x], rfl⟩
    · by_cases hmem : x ∈ arr
      · rw [toggle_collapse_write x f store arr hdec hdir hmem] at h
        obtain rfl : r = _ := (Option.some.inj h).symm
        refine ⟨?_, fun k hk => by simp [updStore, hk]⟩
        intro w hw
        rw [List.mem_singleton.1 hw]
        exact ⟨rfl, arr.erase x, rfl⟩
      · rw [toggle_collapse_noop x f store arr hdec hdir hmem] at h
        obtain rfl : r = _ := (Option.some.inj h).symm
        exact ⟨by simp, fun k _ => rfl⟩

theorem toggle_reads_only_key (x : String) (f : List Node)
    (store store2 : Store) (hkey : store2 lsKey = store lsKey) :
    (list_sidebar.toggle_click x f store2).map (fun r => (r.forest, r.writes)) =
      (list_sidebar.toggle_click x f store).map (fun r => (r.forest, r.writes)) := by
  cases hdec : decodeArr ((store lsKey).getD "[]") with
  | none =>
    have hdec2 : decodeArr ((store2 lsKey).getD "[]") = none := by
      rw [hkey]; exact hdec
    simp [list_sidebar.toggle_click, hdec, hdec2]
  | some arr =>
    have hdec2 : decodeArr ((store2 lsKey).getD "[]") = some arr := by
      rw [hkey]; exact hdec
    by_cases hdir : hrefOf x f = some "#es-line-down"
    · by_cases hmem : x ∈ arr
      · rw [toggle_expand_noop x f store arr hdec hdir hmem,
          toggle_expand_noop x f store2 arr hdec2 hdir hmem]
        rfl
      · rw [toggle_expand_write x f store arr hdec hdir hmem,
          toggle_expand_write x f store2 arr hdec2 hdir hmem]
        rfl
    · by_cases hmem : x ∈ arr
      · rw [toggle_collapse_write x f store arr hdec hdir hmem,
          toggle_collapse_write x f store2 arr hdec2 hdir hmem]
        rfl
      · rw [toggle_collapse_noop x f store arr hdec hdir hmem,
          toggle_collapse_noop x f store2 arr hdec2 hdir hmem]
        rfl

/-- C7: in both the list-sidebar and the form-sidebar handler, every
`setItem` performed targets the single key `"list_sidebar_open"` and
writes a JSON-encoded array of title strings; every other key of the
store is left untouched; and the handler's observable behaviour (the
resulting DOM and the writes) depends on the store only through the
value at that single key (it is read via exactly one `getItem`). -/
theorem C7_single_key_json_persistence (x : String) (f : List Node)
    (store : Store) :
    (∀ r, list_sidebar.toggle_click x f store = some r →
      (∀ w ∈ r.writes, w.1 = lsKey ∧ ∃ l : List String, w.2 = encodeArr l) ∧
      (∀ k, k ≠ lsKey → r.store k = store k)) ∧
    (∀ store2 : Store, store2 lsKey = store lsKey →
      (list_sidebar.toggle_click x f store2).map (fun r => (r.forest, r.writes)) =
        (list_sidebar.toggle_click x f store).map (fun r => (r.forest, r.writes))) ∧
    (∀ r, form_sidebar.toggle_click x f store = some r →
      (∀ w ∈ r.writes, w.1 = lsKey ∧ ∃ l : List String, w.2 = encodeArr l) ∧
      (∀ k, k ≠ lsKey → r.store k = store k)) ∧
    (∀ store2 : Store, store2 lsKey = store lsKey →
      (form_sidebar.toggle_click x f store2).map (fun r => (r.forest, r.writes)) =
        (form_sidebar.toggle_click x f store).map (fun r => (r.forest, r.writes))) := by
  refine ⟨fun r h => toggle_writes_props x f store r h,
    fun store2 h => toggle_reads_only_key x f store store2 h, ?_, ?_⟩
  · rw [toggle_click_eq]
    exact fun r h => toggle_writes_props x f store r h
  · rw [toggle_click_eq]
    exact fun store2 h => toggle_reads_only_key x f store store2 h

/-- Witness for C7: its instantiation at a concrete click. -/
theorem C7_single_key_json_persistence_witness :
    (∀ r, list_sidebar.toggle_click "A"
        [Node.mk "A" "" (some "#es-line-down") true [Node.mk "B" "A" none true []]]
        (fun _ => none) = some r →
      (∀ w ∈ r.writes, w.1 = lsKey ∧ ∃ l : List String, w.2 = encodeArr l) ∧
      (∀ k, k ≠ lsKey → r.store k = (fun _ => none : Store) k)) ∧
    (∀ store2 : Store, store2 lsKey = (fun _ => none : Store) lsKey →
      (list_sidebar.toggle_click "A"
        [Node.mk "A" "" (some "#es-line-down") true [Node.mk "B" "A" none true []]]
        store2).map (fun r => (r.forest, r.writes)) =
      (list_sidebar.toggle_click "A"
        [Node.mk "A" "" (some "#es-line-down") true [Node.mk "B" "A" none true []]]
        (fun _ => none)).map (fun r => (r.forest, r.writes))) ∧
    (∀ r, form_sidebar.toggle_click "A"
        [Node.mk "A" "" (some "#es-line-down") true [Node.mk "B" "A" none true []]]
        (fun _ => none) = some r →
      (∀ w ∈ r.writes, w.1 = lsKey ∧ ∃ l : List String, w.2 = encodeArr l) ∧
      (∀ k, k ≠ lsKey → r.store k = (fun _ => none : Store) k)) ∧
    (∀ store2 : Store, store2 lsKey = (fun _ => none : Store) lsKey →
      (form_sidebar.toggle_click "A"
        [Node.mk "A" "" (some "#es-line-down") true [Node.mk "B" "A" none true []]]
        store2).map (fun r => (r.forest, r.writes)) =
      (form_sidebar.toggle_click "A"
        [Node.mk "A" "" (some "#es-line-down") true [Node.mk "B" "A" none true []]]
        (fun _ => none)).map (fun r => (r.forest, r.writes))) :=
  C7_single_key_json_persistence "A"
    [Node.mk "A" "" (some "#es-line-down") true [Node.mk "B" "A" none true []]]
    (fun _ => none)

/-- C10: the menu logic of the two `make_sidebar_menu` functions is
behaviourally identical: the per-item markup templates agree for every
item and every choice of the framework collaborators (`slug`, `__`,
`frappe.utils.icon`), the build phases produce the same forest for every
fetched sequence, and the click handlers are the same function of the
clicked item, the forest and the persisted store. -/
theorem C10_form_menu_equals_list_menu :
    (∀ (slug tr : String → String) (icon_fn : String → String → String)
        (item : PageItem),
      form_sidebar.sidebar_item_container slug tr icon_fn item =
        list_sidebar.sidebar_item_container slug tr icon_fn item) ∧
    (∀ items : List PageItem,
      form_sidebar.buildForest items = list_sidebar.buildForest items) ∧
    (∀ (x : String) (f : List Node) (store : Store),
      form_sidebar.toggle_click x f store =
        list_sidebar.toggle_click x f store) :=
  ⟨fun _ _ _ _ => rfl, fun _ => rfl, fun _ _ _ => rfl⟩

/-- C6: invoking the builder's callback twice on the same sidebar
element appends two `sidebar-menu` containers: the previously appended
menus are left in place (no de-duplication, emptying or replacement),
and each appended container holds one freshly rendered copy of every
fetched item. -/
theorem C6_double_invocation_appends_twice (pages : List PageItem)
    (menus : List (List Node)) :
    list_sidebar.append_sidebar_menu pages
        (list_sidebar.append_sidebar_menu pages menus) =
      menus ++ [initForest pages, initForest pages] ∧
    (∀ it ∈ pages, 0 < countName it.title (initForest pages)) := by
  constructor
  · simp [list_sidebar.append_sidebar_menu]
  · intro it hit
    rw [initForest_count]
    exact filter_title_pos hit

/-- Witness for C6 at a one-item fetch on an empty sidebar. -/
theorem C6_double_invocation_appends_twice_witness :
    list_sidebar.append_sidebar_menu [pageA]
        (list_sidebar.append_sidebar_menu [pageA] []) =
      [] ++ [initForest [pageA], initForest [pageA]] ∧
    (∀ it ∈ [pageA], 0 < countName it.title (initForest [pageA])) :=
  C6_double_invocation_appends_twice [pageA] []

/-- C8: rendering a fetched sequence containing an item whose `title`
field is missing throws: the title is consumed unguarded (by
`frappe.router.slug` and as the selector/attribute key), so the build
aborts with an error rather than handling the malformed item. -/
theorem C8_missing_title_throws :
    build_raw id id (fun _ _ => "")
        [⟨none, "", true, false, "", "", false⟩] =
      Except.error "TypeError: undefined title used as a selector key" := by
  simp [build_raw, render_raw_item, List.mapM, List.mapM.loop]
